import Mathlib

/-!
# Verification of `bank_sim_app.py` (mgt155simulation)

A shallow embedding of the discrete-event bank-queue simulation in
`src/bank_sim_app.py`.  The program builds a `simpy.Environment`, a
`BankSystem` holding two `simpy.Resource`s (one ATM with capacity 1 and a
cashier pool with capacity `num_cashiers`), an arrival-generator process,
and per-customer processes, then calls `env.run(until=sim_time)` and
renders KPIs.

The embedding makes the simpy machinery explicit:

* Simulated time is `ℚ`.  The event queue is a list of events sorted by
  `(due_time, sequence_id)`; scheduling inserts with a fresh, increasing
  sequence id (simpy's deterministic FIFO tie-break), and `env.run(until=t)`
  pops events strictly before `t` (simpy stops at the `until` event, which
  has urgent priority, so events due exactly at `t` never execute).
* Randomness is an explicit input: four streams of draws
  (`np.random.exponential` interarrival gaps, `np.random.uniform` routing
  draws, and the two `np.random.triangular` service-time streams), consumed
  in program order via per-stream counters.  Theorems about distributional
  facts become hypotheses on the streams (e.g. a triangular draw lies in
  `[low, high]`, an exponential draw is nonnegative).
* A customer process (`BankSystem.customer_process`, a generator) becomes a
  state machine `Phase`; the phase constructors carry the generator's live
  locals (`start`, `duration`) at each suspension point.  Grants and
  resumptions go through the event queue exactly as in simpy: an admitted
  request appends the holder synchronously and schedules the continuation
  at the current instant.
* `simpy.Resource` keeps `users` (we track its length, the only use the
  program makes of it) and a FIFO `queue` of waiting requests.  The fields
  `enqLog`, `grantLog` and `grantCount` are observation logs of the grant
  trace (instrumentation only: no step ever reads them).
* `np.random.triangular` validates its parameters at draw time; this is
  modelled by `sampleTri` returning `Except` with numpy's error messages.
-/

namespace BankSim

/-- One customer's control state: the suspension points of
`BankSystem.customer_process`, carrying the generator's live locals.
`atmGranted g` / `cashGranted g`: the request event succeeded at time `g`
(the holder slot is already taken) and the continuation is scheduled;
`inATM start dur` / `inCashier start dur`: the service `timeout` is pending. -/
inductive Phase where
  | waitingATM : Phase
  | atmGranted (g : ℚ) : Phase
  | inATM (start dur : ℚ) : Phase
  | waitingCashier : Phase
  | cashGranted (g : ℚ) : Phase
  | inCashier (start dur : ℚ) : Phase
  | done : Phase
  deriving DecidableEq, Repr

/-- Per-customer record: `arrival` (the local `arrival = self.env.now`),
`wentAtm` (which branch of `if np.random.uniform() < self.atm_prob` ran),
`atmDur` (the ATM block's `duration` local, `0` until drawn), and the
control `phase`. -/
structure Cust where
  arrival : ℚ
  wentAtm : Bool
  atmDur : ℚ
  phase : Phase
  deriving DecidableEq, Repr

/-- A `simpy.Resource`: `capacity`, the number of current holders
(`len(users)`), and the FIFO queue of waiting process ids (`queue`).
`enqLog`, `grantLog`, `grantCount` are append-only observation logs of the
grant trace (never read by any transition). -/
structure Res where
  capacity : ℕ
  usersCount : ℕ
  queue : List ℕ
  enqLog : List ℕ
  grantLog : List ℕ
  grantCount : ℕ
  deriving DecidableEq, Repr

/-- `Resource.request()`: admit immediately if there is spare capacity,
otherwise append the request to the FIFO waiting queue.  Returns the
updated resource and whether the request was granted at once. -/
def Res.request (r : Res) (pid : ℕ) : Res × Bool :=
  if r.usersCount < r.capacity then
    ({ r with usersCount := r.usersCount + 1, grantCount := r.grantCount + 1 }, true)
  else
    ({ r with queue := r.queue ++ [pid], enqLog := r.enqLog ++ [pid] }, false)

/-- `Resource.release()`: remove the holder; if the waiting queue is
non-empty, its front request is granted at once (simpy's `_trigger_put`
admits the next queued request during release, so the holder count is
unchanged), and the granted pid is returned so that its continuation can
be scheduled. -/
def Res.release (r : Res) : Res × Option ℕ :=
  match r.queue with
  | [] => ({ r with usersCount := r.usersCount - 1 }, none)
  | w :: ws =>
      ({ r with queue := ws, grantLog := r.grantLog ++ [w],
                grantCount := r.grantCount + 1 }, some w)

/-- What a scheduled event does when popped: resume the arrival generator
at its loop top (`genStart` is the generator's process-initialisation
event, `genArrive` a resumption after its `timeout`), start a freshly
spawned customer process, or resume a suspended customer. -/
inductive EvAct where
  | genStart : EvAct
  | genArrive : EvAct
  | startCust (pid : ℕ) : EvAct
  | resume (pid : ℕ) : EvAct
  deriving DecidableEq, Repr

/-- A scheduled event: due time, tie-breaking sequence id (assigned
monotonically at scheduling time), and its action. -/
structure Ev where
  time : ℚ
  seq : ℕ
  act : EvAct
  deriving DecidableEq, Repr

/-- The event-queue order: by due time, then by sequence id (simpy's
deterministic FIFO tie-break). -/
def evLe (a b : Ev) : Prop :=
  a.time < b.time ∨ (a.time = b.time ∧ a.seq ≤ b.seq)

instance : DecidableRel evLe := fun a b => by
  unfold evLe; infer_instance

instance : IsTotal Ev evLe := by
  constructor
  intro a b
  rcases lt_trichotomy a.time b.time with h | h | h
  · exact Or.inl (Or.inl h)
  · rcases Nat.le_total a.seq b.seq with hs | hs
    · exact Or.inl (Or.inr ⟨h, hs⟩)
    · exact Or.inr (Or.inr ⟨h.symm, hs⟩)
  · exact Or.inr (Or.inl h)

instance : IsTrans Ev evLe := by
  constructor
  intro a b c hab hbc
  rcases hab with h1 | ⟨h1, h1'⟩
  · rcases hbc with h2 | ⟨h2, _⟩
    · exact Or.inl (h1.trans h2)
    · exact Or.inl (h2 ▸ h1)
  · rcases hbc with h2 | ⟨h2, h2'⟩
    · exact Or.inl (h1 ▸ h2)
    · exact Or.inr ⟨h1.trans h2, h1'.trans h2'⟩

/-- The configuration of one run: the `BankSystem.__init__` arguments
together with the four random streams the program draws from.  `expDraws`
models the successive values of `np.random.exponential(1.0 / arrival_rate)`
(the rate itself is folded into the stream), `uniDraws` the
`np.random.uniform()` routing draws, and `atmTriDraws` / `cashTriDraws`
the `np.random.triangular` service draws for the two resources. -/
structure Config where
  sim_time : ℚ
  num_cashiers : ℕ
  atm_service_time : ℚ × ℚ × ℚ
  cashier_service_time : ℚ × ℚ × ℚ
  atm_prob : ℚ
  expDraws : ℕ → ℚ
  uniDraws : ℕ → ℚ
  atmTriDraws : ℕ → ℚ
  cashTriDraws : ℕ → ℚ

/-- `BankSystem.sample_triangular`, i.e. `np.random.triangular(low, mode,
high)`: numpy validates the parameters at draw time (`left > mode`,
`mode > right`, `left == right` each raise `ValueError`); on success the
drawn variate is the next stream value `x`. -/
def sampleTri (p : ℚ × ℚ × ℚ) (x : ℚ) : Except String ℚ :=
  if p.2.1 < p.1 then .error "left > mode"
  else if p.2.2 < p.2.1 then .error "mode > right"
  else if p.1 = p.2.2 then .error "left == right"
  else .ok x

/-- The whole mutable state of a run: the environment clock `now`, the
next sequence id, the pending event list (sorted by `evLe`), the next
fresh process id, the customer table, the two resources, and the
`BankSystem` statistics fields (`flow_time`, `inv_time`, `inv_queue`,
`atm_busy_time`, `cashier_busy_time`, `last_recorded_time`).  The four
`i*` counters index the random streams; `nevents` counts executed events
(instrumentation only). -/
structure SimState where
  now : ℚ
  seqc : ℕ
  events : List Ev
  nextPid : ℕ
  procs : List (ℕ × Cust)
  atm : Res
  cashiers : Res
  flow_time : List ℚ
  inv_time : List ℚ
  inv_queue : List (ℕ × ℕ)
  atm_busy_time : ℚ
  cashier_busy_time : ℚ
  last_recorded_time : ℚ
  ig : ℕ
  iu : ℕ
  ia : ℕ
  ic : ℕ
  nevents : ℕ
  deriving DecidableEq, Repr

/-- Look up a customer by process id (first match). -/
def lookupP (p : ℕ) : List (ℕ × Cust) → Option Cust
  | [] => none
  | e :: es => if e.1 = p then some e.2 else lookupP p es

/-- Replace the (first) entry for process id `p`. -/
def setP (p : ℕ) (c : Cust) : List (ℕ × Cust) → List (ℕ × Cust)
  | [] => []
  | e :: es => if e.1 = p then (p, c) :: es else e :: setP p c es

/-- Schedule an event at absolute time `t` with a fresh sequence id. -/
def sched (s : SimState) (t : ℚ) (a : EvAct) : SimState :=
  { s with events := List.orderedInsert evLe ⟨t, s.seqc, a⟩ s.events,
           seqc := s.seqc + 1 }

/-- The generator's initialisation event (`env.process(self.generate_customers())`
runs the body up to its first `yield self.env.timeout(...)`): draw an
interarrival gap and schedule the first arrival. -/
def doGenStart (cfg : Config) (s : SimState) : SimState :=
  sched { s with ig := s.ig + 1 } (s.now + cfg.expDraws s.ig) .genArrive

/-- A resumption of `generate_customers` after its `timeout`: spawn a new
customer process (`env.process(self.customer_process())` schedules its
initialisation at the current instant) and loop: draw the next gap and
schedule the next resumption. -/
def doGenArrive (cfg : Config) (s : SimState) : SimState :=
  let s1 := sched { s with nextPid := s.nextPid + 1 } s.now (.startCust s.nextPid)
  sched { s1 with ig := s1.ig + 1 } (s.now + cfg.expDraws s1.ig) .genArrive

/-- The start of `customer_process`: record `arrival = env.now`, draw the
routing uniform, and issue the first resource request.  An immediately
granted request takes the holder slot now and schedules the continuation
(`yield req` succeeding) at the current instant; otherwise the request is
queued and the process suspends with no pending event. -/
def doStart (cfg : Config) (s : SimState) (pid : ℕ) : SimState :=
  let u := cfg.uniDraws s.iu
  let s1 := { s with iu := s.iu + 1 }
  if u < cfg.atm_prob then
    match s1.atm.request pid with
    | (r, true) =>
        sched { s1 with atm := r,
                        procs := (pid, ⟨s1.now, true, 0, .atmGranted s1.now⟩) :: s1.procs }
          s1.now (.resume pid)
    | (r, false) =>
        { s1 with atm := r,
                  procs := (pid, ⟨s1.now, true, 0, .waitingATM⟩) :: s1.procs }
  else
    match s1.cashiers.request pid with
    | (r, true) =>
        sched { s1 with cashiers := r,
                        procs := (pid, ⟨s1.now, false, 0, .cashGranted s1.now⟩) :: s1.procs }
          s1.now (.resume pid)
    | (r, false) =>
        { s1 with cashiers := r,
                  procs := (pid, ⟨s1.now, false, 0, .waitingCashier⟩) :: s1.procs }

/-- Hand the ATM slot freed by a release to waiter `w`: its `yield req`
succeeds now, so its continuation is scheduled at the current instant. -/
def handoverAtm (s : SimState) (w : ℕ) : SimState :=
  match lookupP w s.procs with
  | none => s
  | some cw =>
      sched { s with procs := setP w { cw with phase := .atmGranted s.now } s.procs }
        s.now (.resume w)

/-- Hand a freed cashier slot to waiter `w` (see `handoverAtm`). -/
def handoverCash (s : SimState) (w : ℕ) : SimState :=
  match lookupP w s.procs with
  | none => s
  | some cw =>
      sched { s with procs := setP w { cw with phase := .cashGranted s.now } s.procs }
        s.now (.resume w)

/-- The ATM service `timeout` fired: `self.atm_busy_time += duration`, the
`with` block exits releasing the ATM (handing the slot to the front
waiter, if any), and the process immediately requests the cashier pool. -/
def finishAtm (s : SimState) (pid : ℕ) (c : Cust) (d : ℚ) : SimState :=
  let s1 := { s with atm_busy_time := s.atm_busy_time + d }
  let rel := s1.atm.release
  let s2 := { s1 with atm := rel.1 }
  let s3 := match rel.2 with
    | some w => handoverAtm s2 w
    | none => s2
  match s3.cashiers.request pid with
  | (r2, true) =>
      sched { s3 with cashiers := r2,
                      procs := setP pid { c with phase := .cashGranted s3.now } s3.procs }
        s3.now (.resume pid)
  | (r2, false) =>
      { s3 with cashiers := r2,
                procs := setP pid { c with phase := .waitingCashier } s3.procs }

/-- The sampling block at the end of `customer_process`: if at least 1
time unit passed since `last_recorded_time`, append the timestamp and one
queue-length sample `[len(self.atm.queue), len(self.cashiers.queue)]` and
remember the sampling time. -/
def recordSample (s : SimState) : SimState :=
  if 1 ≤ s.now - s.last_recorded_time then
    { s with inv_time := s.inv_time ++ [s.now],
             inv_queue := s.inv_queue ++ [(s.atm.queue.length, s.cashiers.queue.length)],
             last_recorded_time := s.now }
  else s

/-- The cashier service `timeout` fired: `self.cashier_busy_time +=
duration`, the `with` block exits releasing a cashier (handover to the
front waiter, if any), then `self.flow_time.append(self.env.now - arrival)`
and the sampling block runs. -/
def finishCash (s : SimState) (pid : ℕ) (c : Cust) (d : ℚ) : SimState :=
  let s1 := { s with cashier_busy_time := s.cashier_busy_time + d }
  let rel := s1.cashiers.release
  let s2 := { s1 with cashiers := rel.1 }
  let s3 := match rel.2 with
    | some w => handoverCash s2 w
    | none => s2
  recordSample { s3 with flow_time := s3.flow_time ++ [s3.now - c.arrival],
                         procs := setP pid { c with phase := .done } s3.procs }

/-- The result of executing one event. -/
inductive StepRes where
  | ok (s : SimState)
  | stop
  | err (msg : String)
  deriving DecidableEq, Repr

/-- Resume customer `pid` at its current suspension point.  In the
granted phases the next action is the service-time draw
(`sample_triangular`), where numpy's parameter validation can raise. -/
def doResume (cfg : Config) (s : SimState) (pid : ℕ) : StepRes :=
  match lookupP pid s.procs with
  | none => .ok s
  | some c =>
    match c.phase with
    | .atmGranted _ =>
        match sampleTri cfg.atm_service_time (cfg.atmTriDraws s.ia) with
        | .error m => .err m
        | .ok d =>
            .ok (sched { s with
                  ia := s.ia + 1,
                  procs := setP pid { c with atmDur := d, phase := .inATM s.now d } s.procs }
                (s.now + d) (.resume pid))
    | .inATM _ d => .ok (finishAtm s pid c d)
    | .cashGranted _ =>
        match sampleTri cfg.cashier_service_time (cfg.cashTriDraws s.ic) with
        | .error m => .err m
        | .ok d =>
            .ok (sched { s with
                  ic := s.ic + 1,
                  procs := setP pid { c with phase := .inCashier s.now d } s.procs }
                (s.now + d) (.resume pid))
    | .inCashier _ d => .ok (finishCash s pid c d)
    | _ => .ok s

/-- One iteration of `env.run(until=sim_time)`'s loop: stop if no event is
pending or the earliest event is due at or after the horizon; otherwise
pop it, advance the clock to its due time, and execute its action. -/
def step (cfg : Config) (s : SimState) : StepRes :=
  match s.events with
  | [] => .stop
  | ev :: rest =>
      if cfg.sim_time ≤ ev.time then .stop
      else
        let s0 := { s with events := rest, now := ev.time, nevents := s.nevents + 1 }
        match ev.act with
        | .genStart => .ok (doGenStart cfg s0)
        | .genArrive => .ok (doGenArrive cfg s0)
        | .startCust pid => .ok (doStart cfg s0 pid)
        | .resume pid => doResume cfg s0 pid

/-- `step` as a state transformer: on a clean stop or an exception the
state is left as it was. -/
def stepState (cfg : Config) (s : SimState) : SimState :=
  match step cfg s with
  | .ok s' => s'
  | _ => s

/-- The state `BankSystem.__init__` leaves behind: empty statistics, both
resources idle (ATM capacity 1, cashier capacity `num_cashiers`), and the
arrival generator's initialisation event pending at time 0.  Note that
`__init__` performs no parameter validation whatsoever. -/
def initState (cfg : Config) : SimState where
  now := 0
  seqc := 1
  events := [⟨0, 0, .genStart⟩]
  nextPid := 0
  procs := []
  atm := ⟨1, 0, [], [], [], 0⟩
  cashiers := ⟨cfg.num_cashiers, 0, [], [], [], 0⟩
  flow_time := []
  inv_time := []
  inv_queue := []
  atm_busy_time := 0
  cashier_busy_time := 0
  last_recorded_time := 0
  ig := 0
  iu := 0
  ia := 0
  ic := 0
  nevents := 0

/-- The state after `n` iterations of the run loop from a fresh
`BankSystem` (fuel-indexed; once the run stops or raises, the state is
stationary, so every invariant over all `n` covers the whole run). -/
def runState (cfg : Config) : ℕ → SimState
  | 0 => initState cfg
  | n + 1 => stepState cfg (runState cfg n)

/-- Run up to `n` events and report the exception `env.run` re-raises, if
any (`none` means the run either stopped cleanly or is still going). -/
def runErrFrom (cfg : Config) : ℕ → SimState → Option String
  | 0, _ => none
  | n + 1, s =>
      match step cfg s with
      | .ok s' => runErrFrom cfg n s'
      | .stop => none
      | .err m => some m

/-- The exception raised by a fresh run within `n` events, if any. -/
def runErr (cfg : Config) (n : ℕ) : Option String :=
  runErrFrom cfg n (initState cfg)

/-- A numpy scalar that is either a number or NaN: the value of
`np.mean(xs)` is NaN exactly when `xs` is empty (numpy emits a
`RuntimeWarning` and returns `nan`). -/
inductive NpVal where
  | num (q : ℚ) : NpVal
  | nan : NpVal
  deriving DecidableEq, Repr

/-- `np.mean` as used for the "Average Time in Bank" KPI. -/
def npMean (l : List ℚ) : NpVal :=
  if l.isEmpty then .nan else .num (l.sum / l.length)

/-! ## Derived observations on customers and events -/

/-- The customer currently occupies an ATM slot (its request has been
granted and it has not yet released). -/
def Cust.holdsAtm (c : Cust) : Bool :=
  match c.phase with
  | .atmGranted _ => true
  | .inATM _ _ => true
  | _ => false

/-- The customer currently occupies a cashier slot. -/
def Cust.holdsCash (c : Cust) : Bool :=
  match c.phase with
  | .cashGranted _ => true
  | .inCashier _ _ => true
  | _ => false

/-- The customer has reached the end of `customer_process`. -/
def Cust.finished (c : Cust) : Bool :=
  match c.phase with
  | .done => true
  | _ => false

/-- The pid of a process-initialisation event, if it is one. -/
def startPid (ev : Ev) : Option ℕ :=
  match ev.act with
  | .startCust p => some p
  | _ => none

/-- The pid of a resumption event, if it is one. -/
def resumePid (ev : Ev) : Option ℕ :=
  match ev.act with
  | .resume p => some p
  | _ => none

/-- Sum of a customer observable over the process table. -/
def sumC (f : Cust → ℚ) (l : List (ℕ × Cust)) : ℚ :=
  (l.map fun e => f e.2).sum

/-- Count of customers satisfying a predicate over the process table. -/
def cntC (p : Cust → Bool) (l : List (ℕ × Cust)) : ℕ :=
  l.countP fun e => p e.2

/-! ## Process-table lemmas -/

theorem lookupP_cons (a : ℕ × Cust) (l : List (ℕ × Cust)) (p : ℕ) :
    lookupP p (a :: l) = if a.1 = p then some a.2 else lookupP p l := rfl

theorem lookupP_eq_none (p : ℕ) (l : List (ℕ × Cust))
    (h : ∀ e ∈ l, e.1 ≠ p) : lookupP p l = none := by
  induction l with
  | nil => rfl
  | cons a l ih =>
      rw [lookupP_cons, if_neg (h a (by simp))]
      exact ih fun e he => h e (by simp [he])

theorem lookupP_eq_none_of_lt (p : ℕ) (l : List (ℕ × Cust))
    (h : ∀ e ∈ l, e.1 < p) : lookupP p l = none :=
  lookupP_eq_none p l fun e he => Nat.ne_of_lt (h e he)

theorem lookupP_setP_self (p : ℕ) (c : Cust) (l : List (ℕ × Cust)) (c₀ : Cust)
    (h : lookupP p l = some c₀) : lookupP p (setP p c l) = some c := by
  induction l with
  | nil => simp [lookupP] at h
  | cons a l ih =>
      by_cases ha : a.1 = p
      · simp [setP, ha, lookupP]
      · rw [lookupP_cons, if_neg ha] at h
        simp only [setP, if_neg ha, lookupP_cons, if_neg ha]
        exact ih h

theorem lookupP_setP_ne (p q : ℕ) (c : Cust) (l : List (ℕ × Cust))
    (h : q ≠ p) : lookupP q (setP p c l) = lookupP q l := by
  induction l with
  | nil => rfl
  | cons a l ih =>
      by_cases ha : a.1 = p
      · have hq : ¬(a.1 = q) := fun hc => h (ha ▸ hc).symm
        simp only [setP, if_pos ha, lookupP_cons]
        rw [if_neg (fun hc : p = q => h hc.symm), if_neg hq]
      · simp only [setP, if_neg ha, lookupP_cons]
        by_cases hq : a.1 = q
        · simp [hq]
        · simp [hq, ih]

theorem mem_setP (p : ℕ) (c : Cust) (l : List (ℕ × Cust)) (x : ℕ × Cust)
    (hx : x ∈ setP p c l) : x = (p, c) ∨ x ∈ l := by
  induction l with
  | nil => simp [setP] at hx
  | cons a l ih =>
      by_cases ha : a.1 = p
      · simp only [setP, if_pos ha, List.mem_cons] at hx
        rcases hx with h | h
        · exact Or.inl h
        · exact Or.inr (List.mem_cons_of_mem _ h)
      · simp only [setP, if_neg ha, List.mem_cons] at hx
        rcases hx with h | h
        · exact Or.inr (h ▸ List.mem_cons_self _ _)
        · rcases ih h with h' | h'
          · exact Or.inl h'
          · exact Or.inr (List.mem_cons_of_mem _ h')

theorem sumC_cons (f : Cust → ℚ) (a : ℕ × Cust) (l : List (ℕ × Cust)) :
    sumC f (a :: l) = f a.2 + sumC f l := by
  simp [sumC]

theorem sumC_setP (f : Cust → ℚ) (p : ℕ) (c c₀ : Cust) (l : List (ℕ × Cust))
    (h : lookupP p l = some c₀) :
    sumC f (setP p c l) = sumC f l + f c - f c₀ := by
  induction l with
  | nil => simp [lookupP] at h
  | cons a l ih =>
      by_cases ha : a.1 = p
      · rw [lookupP_cons, if_pos ha] at h
        injection h with h
        subst h
        simp only [setP, if_pos ha, sumC_cons]
        ring
      · rw [lookupP_cons, if_neg ha] at h
        simp only [setP, if_neg ha, sumC_cons, ih h]
        ring

theorem cntC_cons (p : Cust → Bool) (a : ℕ × Cust) (l : List (ℕ × Cust)) :
    cntC p (a :: l) = cntC p l + if p a.2 then 1 else 0 := by
  simp only [cntC, List.countP_cons]

theorem cntC_setP (q : Cust → Bool) (p : ℕ) (c c₀ : Cust) (l : List (ℕ × Cust))
    (h : lookupP p l = some c₀) :
    cntC q (setP p c l) + (if q c₀ then 1 else 0) =
      cntC q l + (if q c then 1 else 0) := by
  induction l with
  | nil => simp [lookupP] at h
  | cons a l ih =>
      by_cases ha : a.1 = p
      · rw [lookupP_cons, if_pos ha] at h
        injection h with h
        subst h
        simp only [setP, if_pos ha, cntC_cons]
        omega
      · rw [lookupP_cons, if_neg ha] at h
        simp only [setP, if_neg ha, cntC_cons]
        have h2 := ih h
        omega

theorem cntC_pos (q : Cust → Bool) (p : ℕ) (c : Cust) (l : List (ℕ × Cust))
    (h : lookupP p l = some c) (hq : q c = true) : 1 ≤ cntC q l := by
  induction l with
  | nil => simp [lookupP] at h
  | cons a l ih =>
      rw [cntC_cons]
      by_cases ha : a.1 = p
      · rw [lookupP_cons, if_pos ha] at h
        injection h with h
        subst h
        simp [hq]
      · rw [lookupP_cons, if_neg ha] at h
        have := ih h
        omega

/-! ## Event-queue lemmas -/

theorem mem_schedQ (e x : Ev) (l : List Ev) :
    x ∈ List.orderedInsert evLe e l ↔ x = e ∨ x ∈ l :=
  List.mem_orderedInsert evLe

theorem filterMap_schedQ_perm (f : Ev → Option ℕ) (e : Ev) (l : List Ev) :
    List.Perm ((List.orderedInsert evLe e l).filterMap f) ((e :: l).filterMap f) :=
  (List.perm_orderedInsert evLe e l).filterMap f

theorem nodup_filterMap_schedQ (f : Ev → Option ℕ) (e : Ev) (l : List Ev)
    (h : ((e :: l).filterMap f).Nodup) :
    ((List.orderedInsert evLe e l).filterMap f).Nodup :=
  (filterMap_schedQ_perm f e l).symm.nodup h

/-! ## The basic invariant

`InvB` collects the structural facts about a simulation state that hold
with no assumption on the random streams: process ids are allocated
fresh, each resource's holder count matches the customers in holding
phases and never exceeds capacity, waiting queues contain exactly
customers in the corresponding waiting phase (without duplicates), the
grant logs witness FIFO handling of the waiting queue, `flow_time` has
one entry per finished customer, and the queue-length sample series is
well-formed (equal lengths, consecutive timestamps at least 1 apart,
`last_recorded_time` is the last sample timestamp). -/

structure InvB (cfg : Config) (s : SimState) : Prop where
  keys_lt : ∀ e ∈ s.procs, e.1 < s.nextPid
  atm_cap_eq : s.atm.capacity = 1
  cash_cap_eq : s.cashiers.capacity = cfg.num_cashiers
  atm_cap : s.atm.usersCount ≤ s.atm.capacity
  cash_cap : s.cashiers.usersCount ≤ s.cashiers.capacity
  atm_cnt : s.atm.usersCount = cntC Cust.holdsAtm s.procs
  cash_cnt : s.cashiers.usersCount = cntC Cust.holdsCash s.procs
  atm_q : ∀ p ∈ s.atm.queue, ∃ c, lookupP p s.procs = some c ∧ c.phase = .waitingATM
  cash_q : ∀ p ∈ s.cashiers.queue, ∃ c, lookupP p s.procs = some c ∧ c.phase = .waitingCashier
  atm_qnd : s.atm.queue.Nodup
  cash_qnd : s.cashiers.queue.Nodup
  atm_fifo : s.atm.enqLog = s.atm.grantLog ++ s.atm.queue
  cash_fifo : s.cashiers.enqLog = s.cashiers.grantLog ++ s.cashiers.queue
  start_fresh : ∀ ev ∈ s.events, ∀ p, ev.act = .startCust p →
    lookupP p s.procs = none ∧ p < s.nextPid
  start_nd : (s.events.filterMap startPid).Nodup
  flow_done : s.flow_time.length = cntC Cust.finished s.procs
  inv_len : s.inv_time.length = s.inv_queue.length
  inv_chain : s.inv_time.Chain' (fun a b => a + 1 ≤ b)
  inv_last : s.inv_time.getLast? = some s.last_recorded_time ∨
    (s.inv_time = [] ∧ s.last_recorded_time = 0)

theorem invB_init (cfg : Config) : InvB cfg (initState cfg) := by
  constructor <;> simp [initState, cntC, startPid]

theorem startPid_eq_some (ev : Ev) (p : ℕ) :
    startPid ev = some p ↔ ev.act = .startCust p := by
  unfold startPid
  cases hact : ev.act <;> simp

theorem mem_starts (l : List Ev) (p : ℕ) :
    p ∈ l.filterMap startPid ↔ ∃ ev ∈ l, ev.act = .startCust p := by
  simp only [List.mem_filterMap, startPid_eq_some]

theorem lookupP_cons_ne (pid q : ℕ) (c : Cust) (l : List (ℕ × Cust))
    (h : pid ≠ q) : lookupP q ((pid, c) :: l) = lookupP q l := by
  rw [lookupP_cons, if_neg h]

/-- Popping the head event (advancing the clock to its due time) keeps
the basic invariant. -/
theorem invB_advanced (cfg : Config) (s : SimState) (ev : Ev) (rest : List Ev)
    (hB : InvB cfg s) (hev : s.events = ev :: rest) :
    InvB cfg { s with events := rest, now := ev.time, nevents := s.nevents + 1 } := by
  obtain ⟨f1, f2, f3, f4, f5, f6, f7, f8, f9, f10, f11, f12, f13, f14, f15, f16,
    f17, f18, f19⟩ := hB
  refine ⟨f1, f2, f3, f4, f5, f6, f7, f8, f9, f10, f11, f12, f13, ?_, ?_, f16, f17, f18, f19⟩
  · intro e he p hp
    exact f14 e (hev ▸ List.mem_cons_of_mem _ he) p hp
  · rw [hev] at f15
    simp only [List.filterMap_cons] at f15
    cases h : startPid ev <;> rw [h] at f15
    · exact f15
    · exact f15.of_cons

theorem invB_doGenStart (cfg : Config) (s : SimState) (hB : InvB cfg s) :
    InvB cfg (doGenStart cfg s) := by
  obtain ⟨f1, f2, f3, f4, f5, f6, f7, f8, f9, f10, f11, f12, f13, f14, f15, f16,
    f17, f18, f19⟩ := hB
  refine ⟨f1, f2, f3, f4, f5, f6, f7, f8, f9, f10, f11, f12, f13, ?_, ?_, f16, f17, f18, f19⟩
  · intro e he p hp
    simp only [doGenStart, sched] at he
    rcases (mem_schedQ _ _ _).1 he with h | h
    · subst h; simp at hp
    · exact f14 e h p hp
  · simp only [doGenStart, sched]
    exact nodup_filterMap_schedQ _ _ _ (by simpa [List.filterMap_cons, startPid] using f15)

theorem invB_doGenArrive (cfg : Config) (s : SimState) (hB : InvB cfg s) :
    InvB cfg (doGenArrive cfg s) := by
  obtain ⟨f1, f2, f3, f4, f5, f6, f7, f8, f9, f10, f11, f12, f13, f14, f15, f16,
    f17, f18, f19⟩ := hB
  refine ⟨?_, f2, f3, f4, f5, f6, f7, f8, f9, f10, f11, f12, f13, ?_, ?_, f16, f17, f18, f19⟩
  · intro e he
    exact Nat.lt_succ_of_lt (f1 e he)
  · intro e he p hp
    simp only [doGenArrive, sched] at he
    rcases (mem_schedQ _ _ _).1 he with h | h
    · subst h; simp at hp
    · rcases (mem_schedQ _ _ _).1 h with h' | h'
      · subst h'
        simp only [EvAct.startCust.injEq] at hp
        subst hp
        exact ⟨lookupP_eq_none_of_lt _ _ f1, Nat.lt_succ_self _⟩
      · obtain ⟨hl, hlt⟩ := f14 e h' p hp
        exact ⟨hl, Nat.lt_succ_of_lt hlt⟩
  · simp only [doGenArrive, sched]
    apply nodup_filterMap_schedQ
    simp only [List.filterMap_cons, startPid]
    apply nodup_filterMap_schedQ
    simp only [List.filterMap_cons, startPid, List.nodup_cons]
    refine ⟨fun hmem => ?_, f15⟩
    obtain ⟨ev, hev, hact⟩ := (mem_starts _ _).1 hmem
    exact absurd (f14 ev hev _ hact).2 (Nat.lt_irrefl _)

/-- Starting a freshly spawned customer keeps the basic invariant.  The
hypotheses are what `start_fresh` / `start_nd` provide for the popped
initialisation event: the pid is unused and no other pending
initialisation event carries it. -/
theorem invB_doStart (cfg : Config) (s : SimState) (pid : ℕ) (hB : InvB cfg s)
    (hfresh : lookupP pid s.procs = none) (hlt : pid < s.nextPid)
    (hother : ∀ ev ∈ s.events, ∀ q, ev.act = .startCust q → q ≠ pid) :
    InvB cfg (doStart cfg s pid) := by
  obtain ⟨f1, f2, f3, f4, f5, f6, f7, f8, f9, f10, f11, f12, f13, f14, f15, f16,
    f17, f18, f19⟩ := hB
  have hqatm : pid ∉ s.atm.queue := by
    intro hmem
    obtain ⟨c, hc, -⟩ := f8 pid hmem
    rw [hfresh] at hc; exact Option.noConfusion hc
  have hqcash : pid ∉ s.cashiers.queue := by
    intro hmem
    obtain ⟨c, hc, -⟩ := f9 pid hmem
    rw [hfresh] at hc; exact Option.noConfusion hc
  have hlk : ∀ q c₀, lookupP q s.procs = some c₀ → pid ≠ q := by
    intro q c₀ hq hpq
    subst hpq
    rw [hfresh] at hq; exact Option.noConfusion hq
  unfold doStart
  by_cases hu : cfg.uniDraws s.iu < cfg.atm_prob
  · rw [if_pos hu]
    by_cases hcap : s.atm.usersCount < s.atm.capacity
    · simp only [Res.request, if_pos hcap, sched]
      refine ⟨?_, f2, f3, ?_, f5, ?_, ?_, ?_, ?_, f10, f11, f12, f13, ?_, ?_, ?_, f17, f18, f19⟩
      · intro e he
        rcases List.mem_cons.1 he with h | h
        · subst h; exact hlt
        · exact f1 e h
      · exact hcap
      · simp [cntC_cons, Cust.holdsAtm, f6]
      · simp [cntC_cons, Cust.holdsCash, f7]
      · intro q hq
        obtain ⟨c, hc, hph⟩ := f8 q hq
        exact ⟨c, by rw [lookupP_cons_ne _ _ _ _ (hlk q c hc)]; exact hc, hph⟩
      · intro q hq
        obtain ⟨c, hc, hph⟩ := f9 q hq
        exact ⟨c, by rw [lookupP_cons_ne _ _ _ _ (hlk q c hc)]; exact hc, hph⟩
      · intro e he q hq
        rcases (mem_schedQ _ _ _).1 he with h | h
        · subst h; simp at hq
        · obtain ⟨hl, hlt'⟩ := f14 e h q hq
          exact ⟨by rw [lookupP_cons_ne _ _ _ _ (hother e h q hq).symm]; exact hl, hlt'⟩
      · exact nodup_filterMap_schedQ _ _ _ (by simpa [List.filterMap_cons, startPid] using f15)
      · simp [cntC_cons, Cust.finished, f16]
    · simp only [Res.request, if_neg hcap]
      refine ⟨?_, f2, f3, f4, f5, ?_, ?_, ?_, ?_, ?_, f11, ?_, f13, ?_, f15, ?_, f17, f18, f19⟩
      · intro e he
        rcases List.mem_cons.1 he with h | h
        · subst h; exact hlt
        · exact f1 e h
      · simp [cntC_cons, Cust.holdsAtm, f6]
      · simp [cntC_cons, Cust.holdsCash, f7]
      · intro q hq
        rcases List.mem_append.1 hq with h | h
        · obtain ⟨c, hc, hph⟩ := f8 q h
          exact ⟨c, by rw [lookupP_cons_ne _ _ _ _ (hlk q c hc)]; exact hc, hph⟩
        · rcases List.mem_singleton.1 h with rfl
          exact ⟨_, by rw [lookupP_cons, if_pos rfl], rfl⟩
      · intro q hq
        obtain ⟨c, hc, hph⟩ := f9 q hq
        exact ⟨c, by rw [lookupP_cons_ne _ _ _ _ (hlk q c hc)]; exact hc, hph⟩
      · exact List.Nodup.append f10 (List.nodup_singleton _)
          (by simpa using fun h => hqatm h)
      · simp [f12]
      · intro e he q hq
        obtain ⟨hl, hlt'⟩ := f14 e he q hq
        exact ⟨by rw [lookupP_cons_ne _ _ _ _ (hother e he q hq).symm]; exact hl, hlt'⟩
      · simp [cntC_cons, Cust.finished, f16]
  · rw [if_neg hu]
    by_cases hcap : s.cashiers.usersCount < s.cashiers.capacity
    · simp only [Res.request, if_pos hcap, sched]
      refine ⟨?_, f2, f3, f4, ?_, ?_, ?_, ?_, ?_, f10, f11, f12, f13, ?_, ?_, ?_, f17, f18, f19⟩
      · intro e he
        rcases List.mem_cons.1 he with h | h
        · subst h; exact hlt
        · exact f1 e h
      · exact hcap
      · simp [cntC_cons, Cust.holdsAtm, f6]
      · simp [cntC_cons, Cust.holdsCash, f7]
      · intro q hq
        obtain ⟨c, hc, hph⟩ := f8 q hq
        exact ⟨c, by rw [lookupP_cons_ne _ _ _ _ (hlk q c hc)]; exact hc, hph⟩
      · intro q hq
        obtain ⟨c, hc, hph⟩ := f9 q hq
        exact ⟨c, by rw [lookupP_cons_ne _ _ _ _ (hlk q c hc)]; exact hc, hph⟩
      · intro e he q hq
        rcases (mem_schedQ _ _ _).1 he with h | h
        · subst h; simp at hq
        · obtain ⟨hl, hlt'⟩ := f14 e h q hq
          exact ⟨by rw [lookupP_cons_ne _ _ _ _ (hother e h q hq).symm]; exact hl, hlt'⟩
      · exact nodup_filterMap_schedQ _ _ _ (by simpa [List.filterMap_cons, startPid] using f15)
      · simp [cntC_cons, Cust.finished, f16]
    · simp only [Res.request, if_neg hcap]
      refine ⟨?_, f2, f3, f4, f5, ?_, ?_, ?_, ?_, f10, ?_, f12, ?_, ?_, f15, ?_, f17, f18, f19⟩
      · intro e he
        rcases List.mem_cons.1 he with h | h
        · subst h; exact hlt
        · exact f1 e h
      · simp [cntC_cons, Cust.holdsAtm, f6]
      · simp [cntC_cons, Cust.holdsCash, f7]
      · intro q hq
        obtain ⟨c, hc, hph⟩ := f8 q hq
        exact ⟨c, by rw [lookupP_cons_ne _ _ _ _ (hlk q c hc)]; exact hc, hph⟩
      · intro q hq
        rcases List.mem_append.1 hq with h | h
        · obtain ⟨c, hc, hph⟩ := f9 q h
          exact ⟨c, by rw [lookupP_cons_ne _ _ _ _ (hlk q c hc)]; exact hc, hph⟩
        · rcases List.mem_singleton.1 h with rfl
          exact ⟨_, by rw [lookupP_cons, if_pos rfl], rfl⟩
      · exact List.Nodup.append f11 (List.nodup_singleton _)
          (by simpa using fun h => hqcash h)
      · simp [f13]
      · intro e he q hq
        obtain ⟨hl, hlt'⟩ := f14 e he q hq
        exact ⟨by rw [lookupP_cons_ne _ _ _ _ (hother e he q hq).symm]; exact hl, hlt'⟩
      · simp [cntC_cons, Cust.finished, f16]

theorem lookupP_some_mem (p : ℕ) (c : Cust) (l : List (ℕ × Cust))
    (h : lookupP p l = some c) : (p, c) ∈ l := by
  induction l with
  | nil => simp [lookupP] at h
  | cons a l ih =>
      rw [lookupP_cons] at h
      by_cases ha : a.1 = p
      · rw [if_pos ha] at h
        injection h with h
        have : a = (p, c) := by
          rw [← ha, ← h]
        exact this ▸ List.mem_cons_self _ _
      · rw [if_neg ha] at h
        exact List.mem_cons_of_mem _ (ih h)

theorem lookupP_setP_none (p q : ℕ) (c : Cust) (l : List (ℕ × Cust))
    (h : lookupP p l = none) : lookupP p (setP q c l) = none := by
  induction l with
  | nil => rfl
  | cons a l ih =>
      rw [lookupP_cons] at h
      by_cases ha : a.1 = p
      · rw [if_pos ha] at h
        exact Option.noConfusion h
      · rw [if_neg ha] at h
        by_cases haq : a.1 = q
        · simp only [setP, if_pos haq, lookupP_cons]
          rw [if_neg (haq ▸ ha)]
          exact h
        · simp only [setP, if_neg haq, lookupP_cons, if_neg ha]
          exact ih h

theorem ne_of_lookupP_phase (l : List (ℕ × Cust)) (p q : ℕ) (c cq : Cust)
    (hp : lookupP p l = some c) (hq : lookupP q l = some cq)
    (hne : c.phase ≠ cq.phase) : q ≠ p := by
  intro h
  subst h
  rw [hp] at hq
  injection hq with h2
  exact hne (h2 ▸ rfl)

/-- The ATM service-time draw (resuming a customer whose `yield req`
succeeded) keeps the basic invariant. -/
theorem invB_drawAtm (cfg : Config) (s : SimState) (pid : ℕ) (c : Cust) (g d : ℚ)
    (hB : InvB cfg s) (hc : lookupP pid s.procs = some c)
    (hph : c.phase = .atmGranted g) :
    InvB cfg (sched { s with
        ia := s.ia + 1,
        procs := setP pid { c with atmDur := d, phase := .inATM s.now d } s.procs }
      (s.now + d) (.resume pid)) := by
  obtain ⟨f1, f2, f3, f4, f5, f6, f7, f8, f9, f10, f11, f12, f13, f14, f15, f16,
    f17, f18, f19⟩ := hB
  simp only [sched]
  have hqa : ∀ q ∈ s.atm.queue, q ≠ pid := by
    intro q hq
    obtain ⟨cq, hcq, hphq⟩ := f8 q hq
    exact ne_of_lookupP_phase _ _ _ _ _ hc hcq (by rw [hph, hphq]; intro h; exact Phase.noConfusion h)
  have hqc : ∀ q ∈ s.cashiers.queue, q ≠ pid := by
    intro q hq
    obtain ⟨cq, hcq, hphq⟩ := f9 q hq
    exact ne_of_lookupP_phase _ _ _ _ _ hc hcq (by rw [hph, hphq]; intro h; exact Phase.noConfusion h)
  refine ⟨?_, f2, f3, f4, f5, ?_, ?_, ?_, ?_, f10, f11, f12, f13, ?_, ?_, ?_, f17, f18, f19⟩
  · intro e he
    rcases mem_setP _ _ _ _ he with h | h
    · subst h
      exact f1 (pid, c) (lookupP_some_mem pid c s.procs hc)
    · exact f1 e h
  · have := cntC_setP Cust.holdsAtm pid { c with atmDur := d, phase := .inATM s.now d } c _ hc
    rw [f6]
    simp only [Cust.holdsAtm, hph] at this ⊢
    omega
  · have := cntC_setP Cust.holdsCash pid { c with atmDur := d, phase := .inATM s.now d } c _ hc
    rw [f7]
    simp only [Cust.holdsCash, hph] at this ⊢
    omega
  · intro q hq
    obtain ⟨cq, hcq, hphq⟩ := f8 q hq
    exact ⟨cq, by rw [lookupP_setP_ne _ _ _ _ (hqa q hq)]; exact hcq, hphq⟩
  · intro q hq
    obtain ⟨cq, hcq, hphq⟩ := f9 q hq
    exact ⟨cq, by rw [lookupP_setP_ne _ _ _ _ (hqc q hq)]; exact hcq, hphq⟩
  · intro e he p hp
    rcases (mem_schedQ _ _ _).1 he with h | h
    · subst h; simp at hp
    · obtain ⟨hl, hlt⟩ := f14 e h p hp
      exact ⟨lookupP_setP_none _ _ _ _ hl, hlt⟩
  · exact nodup_filterMap_schedQ _ _ _ (by simpa [List.filterMap_cons, startPid] using f15)
  · have := cntC_setP Cust.finished pid { c with atmDur := d, phase := .inATM s.now d } c _ hc
    rw [f16]
    simp only [Cust.finished, hph] at this ⊢
    omega

/-- The cashier service-time draw keeps the basic invariant. -/
theorem invB_drawCash (cfg : Config) (s : SimState) (pid : ℕ) (c : Cust) (g d : ℚ)
    (hB : InvB cfg s) (hc : lookupP pid s.procs = some c)
    (hph : c.phase = .cashGranted g) :
    InvB cfg (sched { s with
        ic := s.ic + 1,
        procs := setP pid { c with phase := .inCashier s.now d } s.procs }
      (s.now + d) (.resume pid)) := by
  obtain ⟨f1, f2, f3, f4, f5, f6, f7, f8, f9, f10, f11, f12, f13, f14, f15, f16,
    f17, f18, f19⟩ := hB
  simp only [sched]
  have hqa : ∀ q ∈ s.atm.queue, q ≠ pid := by
    intro q hq
    obtain ⟨cq, hcq, hphq⟩ := f8 q hq
    exact ne_of_lookupP_phase _ _ _ _ _ hc hcq (by rw [hph, hphq]; intro h; exact Phase.noConfusion h)
  have hqc : ∀ q ∈ s.cashiers.queue, q ≠ pid := by
    intro q hq
    obtain ⟨cq, hcq, hphq⟩ := f9 q hq
    exact ne_of_lookupP_phase _ _ _ _ _ hc hcq (by rw [hph, hphq]; intro h; exact Phase.noConfusion h)
  refine ⟨?_, f2, f3, f4, f5, ?_, ?_, ?_, ?_, f10, f11, f12, f13, ?_, ?_, ?_, f17, f18, f19⟩
  · intro e he
    rcases mem_setP _ _ _ _ he with h | h
    · subst h
      exact f1 (pid, c) (lookupP_some_mem pid c s.procs hc)
    · exact f1 e h
  · have := cntC_setP Cust.holdsAtm pid { c with phase := .inCashier s.now d } c _ hc
    rw [f6]
    simp only [Cust.holdsAtm, hph] at this ⊢
    omega
  · have := cntC_setP Cust.holdsCash pid { c with phase := .inCashier s.now d } c _ hc
    rw [f7]
    simp only [Cust.holdsCash, hph] at this ⊢
    omega
  · intro q hq
    obtain ⟨cq, hcq, hphq⟩ := f8 q hq
    exact ⟨cq, by rw [lookupP_setP_ne _ _ _ _ (hqa q hq)]; exact hcq, hphq⟩
  · intro q hq
    obtain ⟨cq, hcq, hphq⟩ := f9 q hq
    exact ⟨cq, by rw [lookupP_setP_ne _ _ _ _ (hqc q hq)]; exact hcq, hphq⟩
  · intro e he p hp
    rcases (mem_schedQ _ _ _).1 he with h | h
    · subst h; simp at hp
    · obtain ⟨hl, hlt⟩ := f14 e h p hp
      exact ⟨lookupP_setP_none _ _ _ _ hl, hlt⟩
  · exact nodup_filterMap_schedQ _ _ _ (by simpa [List.filterMap_cons, startPid] using f15)
  · have := cntC_setP Cust.finished pid { c with phase := .inCashier s.now d } c _ hc
    rw [f16]
    simp only [Cust.finished, hph] at this ⊢
    omega


/-- Completing ATM service (busy-time credit, release with FIFO handover,
then the cashier request) keeps the basic invariant. -/
theorem invB_finishAtm (cfg : Config) (s : SimState) (pid : ℕ) (c : Cust) (st d : ℚ)
    (hB : InvB cfg s) (hc : lookupP pid s.procs = some c)
    (hph : c.phase = .inATM st d) :
    InvB cfg (finishAtm s pid c d) := by
  obtain ⟨f1, f2, f3, f4, f5, f6, f7, f8, f9, f10, f11, f12, f13, f14, f15, f16,
    f17, f18, f19⟩ := hB
  have hqcash_ne : ∀ q ∈ s.cashiers.queue, q ≠ pid := by
    intro q hq
    obtain ⟨cq, hcq, hphq⟩ := f9 q hq
    exact ne_of_lookupP_phase _ _ _ _ _ hc hcq
      (by rw [hph, hphq]; intro h; exact Phase.noConfusion h)
  rcases hq : s.atm.queue with _ | ⟨w, ws⟩
  · -- no waiter: the holder count drops by one
    have hcnt1 : 1 ≤ cntC Cust.holdsAtm s.procs :=
      cntC_pos Cust.holdsAtm pid c _ hc (by simp [Cust.holdsAtm, hph])
    by_cases hcap : s.cashiers.usersCount < s.cashiers.capacity
    · simp only [finishAtm, Res.release, hq, Res.request, if_pos hcap, sched]
      refine ⟨?_, f2, f3, ?_, ?_, ?_, ?_, ?_, ?_, ?_, f11, ?_, f13, ?_, ?_, ?_, f17, f18, f19⟩
      · intro e he
        rcases mem_setP _ _ _ _ he with h | h
        · subst h
          exact f1 (pid, c) (lookupP_some_mem pid c s.procs hc)
        · exact f1 e h
      · exact le_trans (Nat.sub_le _ _) f4
      · exact hcap
      · have h2 := cntC_setP Cust.holdsAtm pid { c with phase := .cashGranted s.now } c _ hc
        simp [Cust.holdsAtm, hph] at h2 ⊢
        omega
      · have h2 := cntC_setP Cust.holdsCash pid { c with phase := .cashGranted s.now } c _ hc
        simp [Cust.holdsCash, hph] at h2 ⊢
        omega
      · intro q hmem
        simp [hq] at hmem
      · intro q hmem
        obtain ⟨cq, hcq, hphq⟩ := f9 q hmem
        exact ⟨cq, by rw [lookupP_setP_ne _ _ _ _ (hqcash_ne q hmem)]; exact hcq, hphq⟩
      · simp [hq]
      · rw [f12, hq]
      · intro e he p hp
        rcases (mem_schedQ _ _ _).1 he with h | h
        · subst h; simp at hp
        · obtain ⟨hl, hlt⟩ := f14 e h p hp
          exact ⟨lookupP_setP_none _ _ _ _ hl, hlt⟩
      · exact nodup_filterMap_schedQ _ _ _ (by simpa [List.filterMap_cons, startPid] using f15)
      · have h2 := cntC_setP Cust.finished pid { c with phase := .cashGranted s.now } c _ hc
        simp [Cust.finished, hph] at h2 ⊢
        omega
    · simp only [finishAtm, Res.release, hq, Res.request, if_neg hcap]
      refine ⟨?_, f2, f3, ?_, f5, ?_, ?_, ?_, ?_, ?_, ?_, ?_, ?_, ?_, f15, ?_, f17, f18, f19⟩
      · intro e he
        rcases mem_setP _ _ _ _ he with h | h
        · subst h
          exact f1 (pid, c) (lookupP_some_mem pid c s.procs hc)
        · exact f1 e h
      · exact le_trans (Nat.sub_le _ _) f4
      · have h2 := cntC_setP Cust.holdsAtm pid { c with phase := .waitingCashier } c _ hc
        simp [Cust.holdsAtm, hph] at h2 ⊢
        omega
      · have h2 := cntC_setP Cust.holdsCash pid { c with phase := .waitingCashier } c _ hc
        simp [Cust.holdsCash, hph] at h2 ⊢
        omega
      · intro q hmem
        simp [hq] at hmem
      · intro q hmem
        rcases List.mem_append.1 hmem with h | h
        · obtain ⟨cq, hcq, hphq⟩ := f9 q h
          exact ⟨cq, by rw [lookupP_setP_ne _ _ _ _ (hqcash_ne q h)]; exact hcq, hphq⟩
        · rcases List.mem_singleton.1 h with rfl
          exact ⟨_, lookupP_setP_self _ _ _ _ hc, rfl⟩
      · simp [hq]
      · refine List.Nodup.append f11 (List.nodup_singleton _) ?_
        simp only [List.disjoint_singleton]
        intro hmem
        exact (hqcash_ne pid hmem) rfl
      · rw [f12, hq]
      · rw [f13, List.append_assoc]
      · intro e he p hp
        obtain ⟨hl, hlt⟩ := f14 e he p hp
        exact ⟨lookupP_setP_none _ _ _ _ hl, hlt⟩
      · have h2 := cntC_setP Cust.finished pid { c with phase := .waitingCashier } c _ hc
        simp [Cust.finished, hph] at h2 ⊢
        omega
  · -- a waiter exists: it is granted the freed slot
    have hwmem : w ∈ s.atm.queue := by rw [hq]; exact List.mem_cons_self _ _
    obtain ⟨cw, hcw, hphw⟩ := f8 w hwmem
    have hwpid : w ≠ pid :=
      ne_of_lookupP_phase _ _ _ _ _ hc hcw
        (by rw [hph, hphw]; intro h; exact Phase.noConfusion h)
    have hlk_pid : lookupP pid (setP w { cw with phase := .atmGranted s.now } s.procs) = some c := by
      rw [lookupP_setP_ne _ _ _ _ (Ne.symm hwpid)]
      exact hc
    have hwnotin : w ∉ ws := by
      have := f10
      rw [hq] at this
      exact (List.nodup_cons.1 this).1
    have hws_ne_w : ∀ q ∈ ws, q ≠ w := fun q hqm heq => hwnotin (heq ▸ hqm)
    have hws_mem : ∀ q ∈ ws, q ∈ s.atm.queue := by
      intro q hqm
      rw [hq]
      exact List.mem_cons_of_mem _ hqm
    have hws_ne_pid : ∀ q ∈ ws, q ≠ pid := by
      intro q hqm
      obtain ⟨cq, hcq, hphq⟩ := f8 q (hws_mem q hqm)
      exact ne_of_lookupP_phase _ _ _ _ _ hc hcq
        (by rw [hph, hphq]; intro h; exact Phase.noConfusion h)
    have hcnt_a := cntC_setP Cust.holdsAtm w { cw with phase := .atmGranted s.now } cw _ hcw
    have hcnt_c := cntC_setP Cust.holdsCash w { cw with phase := .atmGranted s.now } cw _ hcw
    have hcnt_f := cntC_setP Cust.finished w { cw with phase := .atmGranted s.now } cw _ hcw
    by_cases hcap : s.cashiers.usersCount < s.cashiers.capacity
    · simp only [finishAtm, Res.release, hq, handoverAtm, hcw, Res.request, if_pos hcap, sched]
      refine ⟨?_, f2, f3, f4, ?_, ?_, ?_, ?_, ?_, ?_, f11, ?_, f13, ?_, ?_, ?_, f17, f18, f19⟩
      · intro e he
        rcases mem_setP _ _ _ _ he with h | h
        · subst h
          exact f1 (pid, c) (lookupP_some_mem pid c s.procs hc)
        · rcases mem_setP _ _ _ _ h with h' | h'
          · subst h'
            exact f1 (w, cw) (lookupP_some_mem w cw s.procs hcw)
          · exact f1 e h'
      · exact hcap
      · have h2 := cntC_setP Cust.holdsAtm pid { c with phase := .cashGranted s.now } c _ hlk_pid
        simp [Cust.holdsAtm, hph, hphw] at h2 hcnt_a ⊢
        omega
      · have h2 := cntC_setP Cust.holdsCash pid { c with phase := .cashGranted s.now } c _ hlk_pid
        simp [Cust.holdsCash, hph, hphw] at h2 hcnt_c ⊢
        omega
      · intro q hmem
        obtain ⟨cq, hcq, hphq⟩ := f8 q (hws_mem q hmem)
        refine ⟨cq, ?_, hphq⟩
        rw [lookupP_setP_ne _ _ _ _ (hws_ne_pid q hmem),
            lookupP_setP_ne _ _ _ _ (hws_ne_w q hmem)]
        exact hcq
      · intro q hmem
        obtain ⟨cq, hcq, hphq⟩ := f9 q hmem
        have hqw : q ≠ w :=
          ne_of_lookupP_phase _ _ _ _ _ hcw hcq
            (by rw [hphw, hphq]; intro h; exact Phase.noConfusion h)
        refine ⟨cq, ?_, hphq⟩
        rw [lookupP_setP_ne _ _ _ _ (hqcash_ne q hmem), lookupP_setP_ne _ _ _ _ hqw]
        exact hcq
      · have := f10
        rw [hq] at this
        exact (List.nodup_cons.1 this).2
      · rw [f12, hq, List.append_assoc]
        rfl
      · intro e he p hp
        rcases (mem_schedQ _ _ _).1 he with h | h
        · subst h; simp at hp
        · rcases (mem_schedQ _ _ _).1 h with h' | h'
          · subst h'; simp at hp
          · obtain ⟨hl, hlt⟩ := f14 e h' p hp
            exact ⟨lookupP_setP_none _ _ _ _ (lookupP_setP_none _ _ _ _ hl), hlt⟩
      · apply nodup_filterMap_schedQ
        simp only [List.filterMap_cons, startPid]
        exact nodup_filterMap_schedQ _ _ _ (by simpa [List.filterMap_cons, startPid] using f15)
      · have h2 := cntC_setP Cust.finished pid { c with phase := .cashGranted s.now } c _ hlk_pid
        simp [Cust.finished, hph, hphw] at h2 hcnt_f ⊢
        omega
    · simp only [finishAtm, Res.release, hq, handoverAtm, hcw, Res.request, if_neg hcap, sched]
      refine ⟨?_, f2, f3, f4, f5, ?_, ?_, ?_, ?_, ?_, ?_, ?_, ?_, ?_, ?_, ?_, f17, f18, f19⟩
      · intro e he
        rcases mem_setP _ _ _ _ he with h | h
        · subst h
          exact f1 (pid, c) (lookupP_some_mem pid c s.procs hc)
        · rcases mem_setP _ _ _ _ h with h' | h'
          · subst h'
            exact f1 (w, cw) (lookupP_some_mem w cw s.procs hcw)
          · exact f1 e h'
      · have h2 := cntC_setP Cust.holdsAtm pid { c with phase := .waitingCashier } c _ hlk_pid
        simp [Cust.holdsAtm, hph, hphw] at h2 hcnt_a ⊢
        omega
      · have h2 := cntC_setP Cust.holdsCash pid { c with phase := .waitingCashier } c _ hlk_pid
        simp [Cust.holdsCash, hph, hphw] at h2 hcnt_c ⊢
        omega
      · intro q hmem
        obtain ⟨cq, hcq, hphq⟩ := f8 q (hws_mem q hmem)
        refine ⟨cq, ?_, hphq⟩
        rw [lookupP_setP_ne _ _ _ _ (hws_ne_pid q hmem),
            lookupP_setP_ne _ _ _ _ (hws_ne_w q hmem)]
        exact hcq
      · intro q hmem
        rcases List.mem_append.1 hmem with h | h
        · obtain ⟨cq, hcq, hphq⟩ := f9 q h
          have hqw : q ≠ w :=
            ne_of_lookupP_phase _ _ _ _ _ hcw hcq
              (by rw [hphw, hphq]; intro h2; exact Phase.noConfusion h2)
          refine ⟨cq, ?_, hphq⟩
          rw [lookupP_setP_ne _ _ _ _ (hqcash_ne q h), lookupP_setP_ne _ _ _ _ hqw]
          exact hcq
        · rcases List.mem_singleton.1 h with rfl
          exact ⟨_, lookupP_setP_self _ _ _ _ hlk_pid, rfl⟩
      · have := f10
        rw [hq] at this
        exact (List.nodup_cons.1 this).2
      · refine List.Nodup.append f11 (List.nodup_singleton _) ?_
        simp only [List.disjoint_singleton]
        intro hmem
        exact (hqcash_ne pid hmem) rfl
      · rw [f12, hq, List.append_assoc]
        rfl
      · rw [f13, List.append_assoc]
      · intro e he p hp
        rcases (mem_schedQ _ _ _).1 he with h | h
        · subst h; simp at hp
        · obtain ⟨hl, hlt⟩ := f14 e h p hp
          exact ⟨lookupP_setP_none _ _ _ _ (lookupP_setP_none _ _ _ _ hl), hlt⟩
      · exact nodup_filterMap_schedQ _ _ _ (by simpa [List.filterMap_cons, startPid] using f15)
      · have h2 := cntC_setP Cust.finished pid { c with phase := .waitingCashier } c _ hlk_pid
        simp [Cust.finished, hph, hphw] at h2 hcnt_f ⊢
        omega


/-- The sampling block keeps the basic invariant: the sample-series
lengths stay equal, and the guard together with `inv_last` gives the
1-unit spacing of consecutive sample timestamps. -/
theorem invB_recordSample (cfg : Config) (s : SimState) (hB : InvB cfg s) :
    InvB cfg (recordSample s) := by
  obtain ⟨f1, f2, f3, f4, f5, f6, f7, f8, f9, f10, f11, f12, f13, f14, f15, f16,
    f17, f18, f19⟩ := hB
  unfold recordSample
  by_cases hrec : (1 : ℚ) ≤ s.now - s.last_recorded_time
  · rw [if_pos hrec]
    refine ⟨f1, f2, f3, f4, f5, f6, f7, f8, f9, f10, f11, f12, f13, f14, f15, f16, ?_, ?_, ?_⟩
    · simp [f17]
    · refine List.Chain'.append f18 (List.chain'_singleton _) ?_
      intro x hx y hy
      rcases f19 with h | ⟨hnil, -⟩
      · rw [h] at hx
        simp only [Option.mem_def, Option.some.injEq] at hx
        simp only [List.head?_cons, Option.mem_def, Option.some.injEq] at hy
        subst hx
        subst hy
        linarith
      · rw [hnil] at hx
        simp at hx
    · left
      exact List.getLast?_concat _
  · rw [if_neg hrec]
    exact ⟨f1, f2, f3, f4, f5, f6, f7, f8, f9, f10, f11, f12, f13, f14, f15, f16, f17, f18, f19⟩

/-- Completing cashier service (busy-time credit, release with FIFO
handover, sojourn recording and the sampling block) keeps the basic
invariant. -/
theorem invB_finishCash (cfg : Config) (s : SimState) (pid : ℕ) (c : Cust) (st d : ℚ)
    (hB : InvB cfg s) (hc : lookupP pid s.procs = some c)
    (hph : c.phase = .inCashier st d) :
    InvB cfg (finishCash s pid c d) := by
  obtain ⟨f1, f2, f3, f4, f5, f6, f7, f8, f9, f10, f11, f12, f13, f14, f15, f16,
    f17, f18, f19⟩ := hB
  have hqatm_ne : ∀ q ∈ s.atm.queue, q ≠ pid := by
    intro q hmem
    obtain ⟨cq, hcq, hphq⟩ := f8 q hmem
    exact ne_of_lookupP_phase _ _ _ _ _ hc hcq
      (by rw [hph, hphq]; intro h; exact Phase.noConfusion h)
  apply invB_recordSample
  rcases hq : s.cashiers.queue with _ | ⟨w, ws⟩
  · have hcnt1 : 1 ≤ cntC Cust.holdsCash s.procs :=
      cntC_pos Cust.holdsCash pid c _ hc (by simp [Cust.holdsCash, hph])
    simp only [finishCash, Res.release, hq]
    refine ⟨?_, f2, f3, f4, ?_, ?_, ?_, ?_, ?_, f10, ?_, f12, ?_, ?_, f15, ?_, f17, f18, f19⟩
    · intro e he
      rcases mem_setP _ _ _ _ he with h | h
      · subst h
        exact f1 (pid, c) (lookupP_some_mem pid c s.procs hc)
      · exact f1 e h
    · exact le_trans (Nat.sub_le _ _) f5
    · have h2 := cntC_setP Cust.holdsAtm pid { c with phase := .done } c _ hc
      simp [Cust.holdsAtm, hph] at h2 ⊢
      omega
    · have h2 := cntC_setP Cust.holdsCash pid { c with phase := .done } c _ hc
      simp [Cust.holdsCash, hph] at h2 ⊢
      omega
    · intro q hmem
      obtain ⟨cq, hcq, hphq⟩ := f8 q hmem
      exact ⟨cq, by rw [lookupP_setP_ne _ _ _ _ (hqatm_ne q hmem)]; exact hcq, hphq⟩
    · intro q hmem
      simp [hq] at hmem
    · simp [hq]
    · rw [f13, hq]
    · intro e he p hp
      obtain ⟨hl, hlt⟩ := f14 e he p hp
      exact ⟨lookupP_setP_none _ _ _ _ hl, hlt⟩
    · have h2 := cntC_setP Cust.finished pid { c with phase := .done } c _ hc
      simp [Cust.finished, hph] at h2 ⊢
      omega
  · have hwmem : w ∈ s.cashiers.queue := by rw [hq]; exact List.mem_cons_self _ _
    obtain ⟨cw, hcw, hphw⟩ := f9 w hwmem
    have hwpid : w ≠ pid :=
      ne_of_lookupP_phase _ _ _ _ _ hc hcw
        (by rw [hph, hphw]; intro h; exact Phase.noConfusion h)
    have hlk_pid : lookupP pid (setP w { cw with phase := .cashGranted s.now } s.procs) = some c := by
      rw [lookupP_setP_ne _ _ _ _ (Ne.symm hwpid)]
      exact hc
    have hwnotin : w ∉ ws := by
      have := f11
      rw [hq] at this
      exact (List.nodup_cons.1 this).1
    have hws_ne_w : ∀ q ∈ ws, q ≠ w := fun q hqm heq => hwnotin (heq ▸ hqm)
    have hws_mem : ∀ q ∈ ws, q ∈ s.cashiers.queue := by
      intro q hqm
      rw [hq]
      exact List.mem_cons_of_mem _ hqm
    have hws_ne_pid : ∀ q ∈ ws, q ≠ pid := by
      intro q hqm
      obtain ⟨cq, hcq, hphq⟩ := f9 q (hws_mem q hqm)
      exact ne_of_lookupP_phase _ _ _ _ _ hc hcq
        (by rw [hph, hphq]; intro h; exact Phase.noConfusion h)
    have hcnt_a := cntC_setP Cust.holdsAtm w { cw with phase := .cashGranted s.now } cw _ hcw
    have hcnt_c := cntC_setP Cust.holdsCash w { cw with phase := .cashGranted s.now } cw _ hcw
    have hcnt_f := cntC_setP Cust.finished w { cw with phase := .cashGranted s.now } cw _ hcw
    simp only [finishCash, Res.release, hq, handoverCash, hcw, sched]
    refine ⟨?_, f2, f3, f4, f5, ?_, ?_, ?_, ?_, f10, ?_, f12, ?_, ?_, ?_, ?_, f17, f18, f19⟩
    · intro e he
      rcases mem_setP _ _ _ _ he with h | h
      · subst h
        exact f1 (pid, c) (lookupP_some_mem pid c s.procs hc)
      · rcases mem_setP _ _ _ _ h with h2 | h2
        · subst h2
          exact f1 (w, cw) (lookupP_some_mem w cw s.procs hcw)
        · exact f1 e h2
    · have h2 := cntC_setP Cust.holdsAtm pid { c with phase := .done } c _ hlk_pid
      simp [Cust.holdsAtm, hph, hphw] at h2 hcnt_a ⊢
      omega
    · have h2 := cntC_setP Cust.holdsCash pid { c with phase := .done } c _ hlk_pid
      simp [Cust.holdsCash, hph, hphw] at h2 hcnt_c ⊢
      omega
    · intro q hmem
      obtain ⟨cq, hcq, hphq⟩ := f8 q hmem
      have hqw : q ≠ w :=
        ne_of_lookupP_phase _ _ _ _ _ hcw hcq
          (by rw [hphw, hphq]; intro h; exact Phase.noConfusion h)
      refine ⟨cq, ?_, hphq⟩
      rw [lookupP_setP_ne _ _ _ _ (hqatm_ne q hmem), lookupP_setP_ne _ _ _ _ hqw]
      exact hcq
    · intro q hmem
      obtain ⟨cq, hcq, hphq⟩ := f9 q (hws_mem q hmem)
      refine ⟨cq, ?_, hphq⟩
      rw [lookupP_setP_ne _ _ _ _ (hws_ne_pid q hmem),
          lookupP_setP_ne _ _ _ _ (hws_ne_w q hmem)]
      exact hcq
    · have := f11
      rw [hq] at this
      exact (List.nodup_cons.1 this).2
    · rw [f13, hq, List.append_assoc]
      rfl
    · intro e he p hp
      rcases (mem_schedQ _ _ _).1 he with h | h
      · subst h; simp at hp
      · obtain ⟨hl, hlt⟩ := f14 e h p hp
        exact ⟨lookupP_setP_none _ _ _ _ (lookupP_setP_none _ _ _ _ hl), hlt⟩
    · exact nodup_filterMap_schedQ _ _ _ (by simpa [List.filterMap_cons, startPid] using f15)
    · have h2 := cntC_setP Cust.finished pid { c with phase := .done } c _ hlk_pid
      simp [Cust.finished, hph, hphw] at h2 hcnt_f ⊢
      omega


/-- Executing one event preserves the basic invariant. -/
theorem invB_step_ok (cfg : Config) (s s' : SimState) (hB : InvB cfg s)
    (h : step cfg s = .ok s') : InvB cfg s' := by
  unfold step at h
  rcases hev : s.events with _ | ⟨ev, rest⟩
  · rw [hev] at h
    simp at h
  simp only [hev] at h
  by_cases hhor : cfg.sim_time ≤ ev.time
  · rw [if_pos hhor] at h
    exact absurd h (by simp)
  · rw [if_neg hhor] at h
    have hB0 := invB_advanced cfg s ev rest hB hev
    rcases hact : ev.act with _ | _ | pid | pid <;> simp only [hact] at h
    · rw [StepRes.ok.injEq] at h
      exact h ▸ invB_doGenStart cfg _ hB0
    · rw [StepRes.ok.injEq] at h
      exact h ▸ invB_doGenArrive cfg _ hB0
    · rw [StepRes.ok.injEq] at h
      obtain ⟨hfresh, hlt⟩ :=
        hB.start_fresh ev (hev ▸ List.mem_cons_self _ _) pid hact
      have hnd := hB.start_nd
      rw [hev, List.filterMap_cons] at hnd
      rw [show startPid ev = some pid from (startPid_eq_some ev pid).2 hact] at hnd
      have hother : ∀ e ∈ rest, ∀ q, e.act = .startCust q → q ≠ pid := by
        intro e he q hq rfl2
        exact (List.nodup_cons.1 hnd).1 ((mem_starts _ _).2 ⟨e, he, rfl2 ▸ hq⟩)
      exact h ▸ invB_doStart cfg _ pid hB0 hfresh hlt hother
    · simp only [doResume] at h
      rcases hlk : lookupP pid s.procs with _ | c <;> simp only [hlk] at h
      · rw [StepRes.ok.injEq] at h
        exact h ▸ hB0
      · rcases hph : c.phase with _ | g | ⟨st, d⟩ | _ | g | ⟨st, d⟩ | _ <;> simp only [hph] at h
        · rw [StepRes.ok.injEq] at h
          exact h ▸ hB0
        · rcases htri : sampleTri cfg.atm_service_time (cfg.atmTriDraws s.ia)
            with m | dd <;> simp only [htri] at h
          · exact absurd h (by simp)
          · rw [StepRes.ok.injEq] at h
            exact h ▸ invB_drawAtm cfg _ pid c g dd hB0 hlk hph
        · rw [StepRes.ok.injEq] at h
          exact h ▸ invB_finishAtm cfg _ pid c st d hB0 hlk hph
        · rw [StepRes.ok.injEq] at h
          exact h ▸ hB0
        · rcases htri : sampleTri cfg.cashier_service_time (cfg.cashTriDraws s.ic)
            with m | dd <;> simp only [htri] at h
          · exact absurd h (by simp)
          · rw [StepRes.ok.injEq] at h
            exact h ▸ invB_drawCash cfg _ pid c g dd hB0 hlk hph
        · rw [StepRes.ok.injEq] at h
          exact h ▸ invB_finishCash cfg _ pid c st d hB0 hlk hph
        · rw [StepRes.ok.injEq] at h
          exact h ▸ hB0

/-- The run-loop step preserves the basic invariant. -/
theorem invB_stepState (cfg : Config) (s : SimState) (hB : InvB cfg s) :
    InvB cfg (stepState cfg s) := by
  unfold stepState
  rcases h : step cfg s with s' | _ | m
  · exact invB_step_ok cfg s s' hB h
  · exact hB
  · exact hB

/-- The basic invariant holds at every point of every run. -/
theorem invB_runState (cfg : Config) (n : ℕ) : InvB cfg (runState cfg n) := by
  induction n with
  | zero => exact invB_init cfg
  | succ n ih => exact invB_stepState cfg _ ih


/-! ## The timed invariant

`InvT` collects the facts that depend on the random streams being
reasonable (service draws bounded below by `lA` / `lC` which are
nonnegative, nonnegative interarrival gaps): the clock is nonnegative,
bounded by the horizon and below every pending event; pending events are
sorted; every pending resumption belongs to a customer in a granted or
in-service phase (with the timeout due exactly at `start + dur`); each
customer's record is consistent with the clock (`pInv`); every recorded
sojourn is at least `lA + lC`; and for each resource the busy-time
accumulator plus the elapsed time of the ongoing holds is at most
`capacity * now` — the key inequality behind the utilization bound. -/

/-- Elapsed time of the customer's ongoing ATM hold (0 if none). -/
def contribA (now : ℚ) (c : Cust) : ℚ :=
  match c.phase with
  | .atmGranted g => now - g
  | .inATM start _ => now - start
  | _ => 0

/-- Elapsed time of the customer's ongoing cashier hold (0 if none). -/
def contribC (now : ℚ) (c : Cust) : ℚ :=
  match c.phase with
  | .cashGranted g => now - g
  | .inCashier start _ => now - start
  | _ => 0

/-- Lower bound for the time at which the customer can enter cashier
service: its arrival plus, if it went to the ATM first, its ATM service
duration. -/
def cashLB (c : Cust) : ℚ :=
  c.arrival + (if c.wentAtm then c.atmDur else 0)

/-- If the customer went ATM-first, its recorded ATM duration is at least
`lA`. -/
def atmDurOK (lA : ℚ) (c : Cust) : Prop :=
  c.wentAtm = true → lA ≤ c.atmDur

/-- Per-customer progress invariant, relative to the clock `now` and the
service-time lower bounds `lA`, `lC`. -/
def pInv (lA lC now : ℚ) (c : Cust) : Prop :=
  match c.phase with
  | .waitingATM => c.wentAtm = true ∧ c.arrival ≤ now
  | .atmGranted g => c.wentAtm = true ∧ c.arrival ≤ g ∧ g ≤ now
  | .inATM start d => c.wentAtm = true ∧ c.arrival ≤ start ∧ start ≤ now ∧
      c.atmDur = d ∧ lA ≤ d
  | .waitingCashier => (c.wentAtm = true ∨ lA = 0) ∧ cashLB c ≤ now ∧ atmDurOK lA c
  | .cashGranted g => (c.wentAtm = true ∨ lA = 0) ∧ cashLB c ≤ g ∧ g ≤ now ∧ atmDurOK lA c
  | .inCashier start d => (c.wentAtm = true ∨ lA = 0) ∧ cashLB c ≤ start ∧ start ≤ now ∧
      lC ≤ d ∧ atmDurOK lA c
  | .done => True

/-- A pending resumption event is owned by a customer in a granted or
in-service phase; for in-service phases it is due exactly at
`start + dur`. -/
def resumeOK (procs : List (ℕ × Cust)) (ev : Ev) : Prop :=
  ∀ p, ev.act = .resume p → ∃ c, lookupP p procs = some c ∧
    ((∃ g, c.phase = .atmGranted g) ∨
     (∃ start d, c.phase = .inATM start d ∧ ev.time = start + d) ∨
     (∃ g, c.phase = .cashGranted g) ∨
     (∃ start d, c.phase = .inCashier start d ∧ ev.time = start + d))

/-- Assumptions on the configuration's random streams: the triangular
draws are bounded below by `lA` / `lC` (for `np.random.triangular` any
value in `[low, high]`, so `low` works), interarrival gaps are
nonnegative (always true of `np.random.exponential`), and either `lA = 0`
or every routing draw sends the customer to the ATM first. -/
structure StreamsOK (cfg : Config) (lA lC : ℚ) : Prop where
  lA_nonneg : 0 ≤ lA
  lC_nonneg : 0 ≤ lC
  gap_lb : ∀ i, 0 ≤ cfg.expDraws i
  atm_lb : ∀ i, lA ≤ cfg.atmTriDraws i
  cash_lb : ∀ i, lC ≤ cfg.cashTriDraws i
  route : lA = 0 ∨ ∀ i, cfg.uniDraws i < cfg.atm_prob

structure InvT (cfg : Config) (lA lC : ℚ) (s : SimState) : Prop where
  now_nonneg : 0 ≤ s.now
  now_bound : s.now ≤ max 0 cfg.sim_time
  ev_sorted : s.events.Sorted evLe
  ev_future : ∀ ev ∈ s.events, s.now ≤ ev.time
  resume_ok : ∀ ev ∈ s.events, resumeOK s.procs ev
  resume_nd : (s.events.filterMap resumePid).Nodup
  pinv : ∀ e ∈ s.procs, pInv lA lC s.now e.2
  flow_lb : ∀ x ∈ s.flow_time, lA + lC ≤ x
  pot_atm : s.atm_busy_time + sumC (contribA s.now) s.procs ≤ (s.atm.capacity : ℚ) * s.now
  pot_cash : s.cashier_busy_time + sumC (contribC s.now) s.procs ≤
    (s.cashiers.capacity : ℚ) * s.now
  busy_atm_nonneg : 0 ≤ s.atm_busy_time
  busy_cash_nonneg : 0 ≤ s.cashier_busy_time

theorem invT_init (cfg : Config) (lA lC : ℚ) : InvT cfg lA lC (initState cfg) := by
  constructor <;> simp [initState, sumC, resumeOK, resumePid, le_max_iff, startPid,
    List.Sorted]

/-- Advancing the clock from `now` to `t` grows the total elapsed ATM
hold time by exactly (number of ATM holders) × (t − now). -/
theorem sumC_contribA_shift (procs : List (ℕ × Cust)) (now t : ℚ) :
    sumC (contribA t) procs =
      sumC (contribA now) procs + (cntC Cust.holdsAtm procs : ℚ) * (t - now) := by
  induction procs with
  | nil => simp [sumC, cntC]
  | cons a l ih =>
      rw [sumC_cons, sumC_cons, cntC_cons, ih]
      rcases hph : a.2.phase with _ | g | ⟨st, d⟩ | _ | g | ⟨st, d⟩ | _ <;>
        simp [contribA, Cust.holdsAtm, hph] <;> ring

/-- Advancing the clock from `now` to `t` grows the total elapsed
cashier hold time by exactly (number of cashier holders) × (t − now). -/
theorem sumC_contribC_shift (procs : List (ℕ × Cust)) (now t : ℚ) :
    sumC (contribC t) procs =
      sumC (contribC now) procs + (cntC Cust.holdsCash procs : ℚ) * (t - now) := by
  induction procs with
  | nil => simp [sumC, cntC]
  | cons a l ih =>
      rw [sumC_cons, sumC_cons, cntC_cons, ih]
      rcases hph : a.2.phase with _ | g | ⟨st, d⟩ | _ | g | ⟨st, d⟩ | _ <;>
        simp [contribC, Cust.holdsCash, hph] <;> ring

theorem contribA_nonneg (lA lC now : ℚ) (c : Cust) (h : pInv lA lC now c) :
    0 ≤ contribA now c := by
  rcases hph : c.phase with _ | g | ⟨st, d⟩ | _ | g | ⟨st, d⟩ | _ <;>
    simp only [pInv, hph] at h <;> simp [contribA, hph] <;> linarith [h.2.2]

theorem contribC_nonneg (lA lC now : ℚ) (c : Cust) (h : pInv lA lC now c) :
    0 ≤ contribC now c := by
  rcases hph : c.phase with _ | g | ⟨st, d⟩ | _ | g | ⟨st, d⟩ | _ <;>
    simp only [pInv, hph] at h <;> simp [contribC, hph]
  · linarith [h.2.2.1]
  · linarith [h.2.2.1]

theorem sumC_contribA_nonneg (lA lC now : ℚ) (procs : List (ℕ × Cust))
    (h : ∀ e ∈ procs, pInv lA lC now e.2) : 0 ≤ sumC (contribA now) procs := by
  induction procs with
  | nil => simp [sumC]
  | cons a l ih =>
      rw [sumC_cons]
      have h1 := contribA_nonneg lA lC now a.2 (h a (List.mem_cons_self _ _))
      have h2 := ih fun e he => h e (List.mem_cons_of_mem _ he)
      linarith

theorem sumC_contribC_nonneg (lA lC now : ℚ) (procs : List (ℕ × Cust))
    (h : ∀ e ∈ procs, pInv lA lC now e.2) : 0 ≤ sumC (contribC now) procs := by
  induction procs with
  | nil => simp [sumC]
  | cons a l ih =>
      rw [sumC_cons]
      have h1 := contribC_nonneg lA lC now a.2 (h a (List.mem_cons_self _ _))
      have h2 := ih fun e he => h e (List.mem_cons_of_mem _ he)
      linarith

theorem pInv_mono (lA lC now t : ℚ) (c : Cust) (hle : now ≤ t)
    (h : pInv lA lC now c) : pInv lA lC t c := by
  rcases hph : c.phase with _ | g | ⟨st, d⟩ | _ | g | ⟨st, d⟩ | _ <;>
    simp only [pInv, hph] at h ⊢ <;>
    refine ⟨h.1, ?_⟩
  · exact le_trans h.2 hle
  · exact ⟨h.2.1, le_trans h.2.2 hle⟩
  · exact ⟨h.2.1, le_trans h.2.2.1 hle, h.2.2.2.1, h.2.2.2.2⟩
  · exact ⟨le_trans h.2.1 hle, h.2.2⟩
  · exact ⟨h.2.1, le_trans h.2.2.1 hle, h.2.2.2⟩
  · exact ⟨h.2.1, le_trans h.2.2.1 hle, h.2.2.2.1, h.2.2.2.2⟩

theorem evLe_time_le (a b : Ev) (h : evLe a b) : a.time ≤ b.time := by
  rcases h with h | ⟨h, -⟩
  · exact le_of_lt h
  · exact le_of_eq h


theorem resumePid_eq_some (ev : Ev) (p : ℕ) :
    resumePid ev = some p ↔ ev.act = .resume p := by
  unfold resumePid
  cases hact : ev.act <;> simp

theorem mem_resumes (l : List Ev) (p : ℕ) :
    p ∈ l.filterMap resumePid ↔ ∃ ev ∈ l, ev.act = .resume p := by
  simp only [List.mem_filterMap, resumePid_eq_some]

/-- Popping the head event preserves the timed invariant: the clock moves
to the event's due time, which every later event dominates, and each
resource's hold-elapsed sum grows by at most `capacity × Δ`. -/
theorem invT_advanced (cfg : Config) (lA lC : ℚ) (s : SimState) (ev : Ev) (rest : List Ev)
    (hB : InvB cfg s) (hT : InvT cfg lA lC s)
    (hev : s.events = ev :: rest) (hhor : ¬cfg.sim_time ≤ ev.time) :
    InvT cfg lA lC { s with events := rest, now := ev.time, nevents := s.nevents + 1 } := by
  obtain ⟨t1, t2, t3, t4, t5, t6, t7, t8, t9, t10, t11, t12⟩ := hT
  have hle : s.now ≤ ev.time := t4 ev (hev ▸ List.mem_cons_self _ _)
  have hsort : (∀ y ∈ rest, evLe ev y) ∧ rest.Sorted evLe := by
    have := t3
    rw [hev] at this
    exact List.pairwise_cons.1 this
  have hcastA : (cntC Cust.holdsAtm s.procs : ℚ) ≤ (s.atm.capacity : ℚ) := by
    have := hB.atm_cnt ▸ hB.atm_cap
    exact_mod_cast this
  have hcastC : (cntC Cust.holdsCash s.procs : ℚ) ≤ (s.cashiers.capacity : ℚ) := by
    have := hB.cash_cnt ▸ hB.cash_cap
    exact_mod_cast this
  refine ⟨le_trans t1 hle, ?_, hsort.2, ?_, ?_, ?_, ?_, t8, ?_, ?_, t11, t12⟩
  · exact le_trans (le_of_lt (not_le.1 hhor)) (le_max_right _ _)
  · intro e he
    exact evLe_time_le _ _ (hsort.1 e he)
  · intro e he
    exact t5 e (hev ▸ List.mem_cons_of_mem _ he)
  · have := t6
    rw [hev, List.filterMap_cons] at this
    cases h : resumePid ev <;> rw [h] at this
    · exact this
    · exact this.of_cons
  · intro e he
    exact pInv_mono lA lC s.now ev.time e.2 hle (t7 e he)
  · rw [sumC_contribA_shift s.procs s.now ev.time]
    have hmul : (cntC Cust.holdsAtm s.procs : ℚ) * (ev.time - s.now) ≤
        (s.atm.capacity : ℚ) * (ev.time - s.now) :=
      mul_le_mul_of_nonneg_right hcastA (by linarith)
    nlinarith [t9]
  · rw [sumC_contribC_shift s.procs s.now ev.time]
    have hmul : (cntC Cust.holdsCash s.procs : ℚ) * (ev.time - s.now) ≤
        (s.cashiers.capacity : ℚ) * (ev.time - s.now) :=
      mul_le_mul_of_nonneg_right hcastC (by linarith)
    nlinarith [t10]

/-- The generator initialisation keeps the timed invariant. -/
theorem invT_doGenStart (cfg : Config) (lA lC : ℚ) (s : SimState)
    (hS : StreamsOK cfg lA lC) (hT : InvT cfg lA lC s) :
    InvT cfg lA lC (doGenStart cfg s) := by
  obtain ⟨t1, t2, t3, t4, t5, t6, t7, t8, t9, t10, t11, t12⟩ := hT
  unfold doGenStart
  simp only [sched]
  refine ⟨t1, t2, ?_, ?_, ?_, ?_, t7, t8, t9, t10, t11, t12⟩
  · exact t3.orderedInsert _ _
  · intro e he
    rcases (mem_schedQ _ _ _).1 he with h | h
    · subst h
      have := hS.gap_lb s.ig
      simp only []
      linarith
    · exact t4 e h
  · intro e he
    rcases (mem_schedQ _ _ _).1 he with h | h
    · subst h
      intro p hp
      exact absurd hp (by simp)
    · exact t5 e h
  · exact nodup_filterMap_schedQ _ _ _ (by simpa [List.filterMap_cons, resumePid] using t6)

/-- An arrival (spawning a customer and scheduling the next arrival)
keeps the timed invariant. -/
theorem invT_doGenArrive (cfg : Config) (lA lC : ℚ) (s : SimState)
    (hS : StreamsOK cfg lA lC) (hT : InvT cfg lA lC s) :
    InvT cfg lA lC (doGenArrive cfg s) := by
  obtain ⟨t1, t2, t3, t4, t5, t6, t7, t8, t9, t10, t11, t12⟩ := hT
  unfold doGenArrive
  simp only [sched]
  refine ⟨t1, t2, ?_, ?_, ?_, ?_, t7, t8, t9, t10, t11, t12⟩
  · exact (t3.orderedInsert _ _).orderedInsert _ _
  · intro e he
    rcases (mem_schedQ _ _ _).1 he with h | h
    · subst h
      have := hS.gap_lb s.ig
      simp only []
      linarith
    · rcases (mem_schedQ _ _ _).1 h with h2 | h2
      · subst h2
        exact le_refl _
      · exact t4 e h2
  · intro e he
    rcases (mem_schedQ _ _ _).1 he with h | h
    · subst h
      intro p hp
      exact absurd hp (by simp)
    · rcases (mem_schedQ _ _ _).1 h with h2 | h2
      · subst h2
        intro p hp
        exact absurd hp (by simp)
      · exact t5 e h2
  · apply nodup_filterMap_schedQ
    simp only [List.filterMap_cons, resumePid]
    exact nodup_filterMap_schedQ _ _ _ (by simpa [List.filterMap_cons, resumePid] using t6)


/-- Starting a customer keeps the timed invariant. -/
theorem invT_doStart (cfg : Config) (lA lC : ℚ) (s : SimState) (pid : ℕ)
    (hS : StreamsOK cfg lA lC) (hT : InvT cfg lA lC s)
    (hfresh : lookupP pid s.procs = none) :
    InvT cfg lA lC (doStart cfg s pid) := by
  obtain ⟨t1, t2, t3, t4, t5, t6, t7, t8, t9, t10, t11, t12⟩ := hT
  have hlk_old : ∀ q c₀, lookupP q s.procs = some c₀ → pid ≠ q := by
    intro q c₀ hq hpq
    subst hpq
    rw [hfresh] at hq
    exact Option.noConfusion hq
  have hres_old : ∀ e ∈ s.events, ∀ q, e.act = .resume q → q ≠ pid := by
    intro e he q hq
    obtain ⟨cq, hcq, -⟩ := t5 e he q hq
    exact fun heq => hlk_old q cq hcq heq.symm
  unfold doStart
  by_cases hu : cfg.uniDraws s.iu < cfg.atm_prob
  · rw [if_pos hu]
    by_cases hcap : s.atm.usersCount < s.atm.capacity
    · simp only [Res.request, if_pos hcap, sched]
      refine ⟨t1, t2, ?_, ?_, ?_, ?_, ?_, t8, ?_, ?_, t11, t12⟩
      · exact t3.orderedInsert _ _
      · intro e he
        rcases (mem_schedQ _ _ _).1 he with h | h
        · subst h
          exact le_refl _
        · exact t4 e h
      · intro e he
        rcases (mem_schedQ _ _ _).1 he with h | h
        · subst h
          intro p hp
          simp only [EvAct.resume.injEq] at hp
          subst hp
          refine ⟨_, by rw [lookupP_cons, if_pos rfl], Or.inl ⟨s.now, rfl⟩⟩
        · intro p hp
          obtain ⟨cq, hcq, hrest⟩ := t5 e h p hp
          exact ⟨cq, by rw [lookupP_cons_ne _ _ _ _ (hlk_old p cq hcq)]; exact hcq, hrest⟩
      · apply nodup_filterMap_schedQ
        simp only [List.filterMap_cons, resumePid, List.nodup_cons]
        refine ⟨fun hmem => ?_, t6⟩
        obtain ⟨e, he, hact⟩ := (mem_resumes _ _).1 hmem
        exact hres_old e he pid hact rfl
      · intro e he
        rcases List.mem_cons.1 he with h | h
        · subst h
          exact ⟨rfl, le_refl _, le_refl _⟩
        · exact t7 e h
      · rw [sumC_cons]
        simp only [contribA, sub_self]
        linarith
      · rw [sumC_cons]
        simp only [contribC]
        linarith
    · simp only [Res.request, if_neg hcap]
      refine ⟨t1, t2, t3, t4, ?_, t6, ?_, t8, ?_, ?_, t11, t12⟩
      · intro e he p hp
        obtain ⟨cq, hcq, hrest⟩ := t5 e he p hp
        exact ⟨cq, by rw [lookupP_cons_ne _ _ _ _ (hlk_old p cq hcq)]; exact hcq, hrest⟩
      · intro e he
        rcases List.mem_cons.1 he with h | h
        · subst h
          exact ⟨rfl, le_refl _⟩
        · exact t7 e h
      · rw [sumC_cons]
        simp only [contribA]
        linarith
      · rw [sumC_cons]
        simp only [contribC]
        linarith
  · rw [if_neg hu]
    have hroute : lA = 0 := by
      rcases hS.route with h0 | hall
      · exact h0
      · exact absurd (hall s.iu) hu
    by_cases hcap : s.cashiers.usersCount < s.cashiers.capacity
    · simp only [Res.request, if_pos hcap, sched]
      refine ⟨t1, t2, ?_, ?_, ?_, ?_, ?_, t8, ?_, ?_, t11, t12⟩
      · exact t3.orderedInsert _ _
      · intro e he
        rcases (mem_schedQ _ _ _).1 he with h | h
        · subst h
          exact le_refl _
        · exact t4 e h
      · intro e he
        rcases (mem_schedQ _ _ _).1 he with h | h
        · subst h
          intro p hp
          simp only [EvAct.resume.injEq] at hp
          subst hp
          refine ⟨_, by rw [lookupP_cons, if_pos rfl], Or.inr (Or.inr (Or.inl ⟨s.now, rfl⟩))⟩
        · intro p hp
          obtain ⟨cq, hcq, hrest⟩ := t5 e h p hp
          exact ⟨cq, by rw [lookupP_cons_ne _ _ _ _ (hlk_old p cq hcq)]; exact hcq, hrest⟩
      · apply nodup_filterMap_schedQ
        simp only [List.filterMap_cons, resumePid, List.nodup_cons]
        refine ⟨fun hmem => ?_, t6⟩
        obtain ⟨e, he, hact⟩ := (mem_resumes _ _).1 hmem
        exact hres_old e he pid hact rfl
      · intro e he
        rcases List.mem_cons.1 he with h | h
        · subst h
          refine ⟨Or.inr hroute, ?_, ?_, ?_⟩
          · simp [cashLB]
          · exact le_refl _
          · intro hw
            exact absurd hw (by simp)
        · exact t7 e h
      · rw [sumC_cons]
        simp only [contribA]
        linarith
      · rw [sumC_cons]
        simp only [contribC, sub_self]
        linarith
    · simp only [Res.request, if_neg hcap]
      refine ⟨t1, t2, t3, t4, ?_, t6, ?_, t8, ?_, ?_, t11, t12⟩
      · intro e he p hp
        obtain ⟨cq, hcq, hrest⟩ := t5 e he p hp
        exact ⟨cq, by rw [lookupP_cons_ne _ _ _ _ (hlk_old p cq hcq)]; exact hcq, hrest⟩
      · intro e he
        rcases List.mem_cons.1 he with h | h
        · subst h
          refine ⟨Or.inr hroute, ?_, ?_⟩
          · simp [cashLB]
          · intro hw
            exact absurd hw (by simp)
        · exact t7 e h
      · rw [sumC_cons]
        simp only [contribA]
        linarith
      · rw [sumC_cons]
        simp only [contribC]
        linarith

/-- The ATM service draw keeps the timed invariant. -/
theorem invT_drawAtm (cfg : Config) (lA lC : ℚ) (s : SimState) (pid : ℕ) (c : Cust)
    (g d : ℚ) (hS : StreamsOK cfg lA lC) (hT : InvT cfg lA lC s)
    (hc : lookupP pid s.procs = some c) (hph : c.phase = .atmGranted g)
    (hd : lA ≤ d)
    (hnone : ∀ e ∈ s.events, ∀ q, e.act = .resume q → q ≠ pid) :
    InvT cfg lA lC (sched { s with
        ia := s.ia + 1,
        procs := setP pid { c with atmDur := d, phase := .inATM s.now d } s.procs }
      (s.now + d) (.resume pid)) := by
  obtain ⟨t1, t2, t3, t4, t5, t6, t7, t8, t9, t10, t11, t12⟩ := hT
  have hpc := t7 (pid, c) (lookupP_some_mem pid c s.procs hc)
  rw [pInv, hph] at hpc
  obtain ⟨hw, ha, hg⟩ := hpc
  have hd0 : 0 ≤ d := le_trans hS.lA_nonneg hd
  simp only [sched]
  refine ⟨t1, t2, ?_, ?_, ?_, ?_, ?_, t8, ?_, ?_, t11, t12⟩
  · exact t3.orderedInsert _ _
  · intro e he
    rcases (mem_schedQ _ _ _).1 he with h | h
    · subst h
      simp only []
      linarith
    · exact t4 e h
  · intro e he
    rcases (mem_schedQ _ _ _).1 he with h | h
    · subst h
      intro p hp
      simp only [EvAct.resume.injEq] at hp
      subst hp
      exact ⟨_, lookupP_setP_self _ _ _ _ hc, Or.inr (Or.inl ⟨s.now, d, rfl, rfl⟩)⟩
    · intro p hp
      obtain ⟨cq, hcq, hrest⟩ := t5 e h p hp
      exact ⟨cq, by rw [lookupP_setP_ne _ _ _ _ (hnone e h p hp)]; exact hcq, hrest⟩
  · apply nodup_filterMap_schedQ
    simp only [List.filterMap_cons, resumePid, List.nodup_cons]
    refine ⟨fun hmem => ?_, t6⟩
    obtain ⟨e, he, hact⟩ := (mem_resumes _ _).1 hmem
    exact hnone e he pid hact rfl
  · intro e he
    rcases mem_setP _ _ _ _ he with h | h
    · subst h
      exact ⟨hw, le_trans ha hg, le_refl _, rfl, hd⟩
    · exact t7 e h
  · have hsum := sumC_setP (contribA s.now) pid
      { c with atmDur := d, phase := .inATM s.now d } c _ hc
    rw [hsum]
    simp only [contribA, hph, sub_self]
    linarith
  · have hsum := sumC_setP (contribC s.now) pid
      { c with atmDur := d, phase := .inATM s.now d } c _ hc
    rw [hsum]
    simp only [contribC, hph]
    linarith

/-- The cashier service draw keeps the timed invariant. -/
theorem invT_drawCash (cfg : Config) (lA lC : ℚ) (s : SimState) (pid : ℕ) (c : Cust)
    (g d : ℚ) (hS : StreamsOK cfg lA lC) (hT : InvT cfg lA lC s)
    (hc : lookupP pid s.procs = some c) (hph : c.phase = .cashGranted g)
    (hd : lC ≤ d)
    (hnone : ∀ e ∈ s.events, ∀ q, e.act = .resume q → q ≠ pid) :
    InvT cfg lA lC (sched { s with
        ic := s.ic + 1,
        procs := setP pid { c with phase := .inCashier s.now d } s.procs }
      (s.now + d) (.resume pid)) := by
  obtain ⟨t1, t2, t3, t4, t5, t6, t7, t8, t9, t10, t11, t12⟩ := hT
  have hpc := t7 (pid, c) (lookupP_some_mem pid c s.procs hc)
  rw [pInv, hph] at hpc
  obtain ⟨hor, hlb, hg, hok⟩ := hpc
  have hd0 : 0 ≤ d := le_trans hS.lC_nonneg hd
  simp only [sched]
  refine ⟨t1, t2, ?_, ?_, ?_, ?_, ?_, t8, ?_, ?_, t11, t12⟩
  · exact t3.orderedInsert _ _
  · intro e he
    rcases (mem_schedQ _ _ _).1 he with h | h
    · subst h
      simp only []
      linarith
    · exact t4 e h
  · intro e he
    rcases (mem_schedQ _ _ _).1 he with h | h
    · subst h
      intro p hp
      simp only [EvAct.resume.injEq] at hp
      subst hp
      exact ⟨_, lookupP_setP_self _ _ _ _ hc, Or.inr (Or.inr (Or.inr ⟨s.now, d, rfl, rfl⟩))⟩
    · intro p hp
      obtain ⟨cq, hcq, hrest⟩ := t5 e h p hp
      exact ⟨cq, by rw [lookupP_setP_ne _ _ _ _ (hnone e h p hp)]; exact hcq, hrest⟩
  · apply nodup_filterMap_schedQ
    simp only [List.filterMap_cons, resumePid, List.nodup_cons]
    refine ⟨fun hmem => ?_, t6⟩
    obtain ⟨e, he, hact⟩ := (mem_resumes _ _).1 hmem
    exact hnone e he pid hact rfl
  · intro e he
    rcases mem_setP _ _ _ _ he with h | h
    · subst h
      exact ⟨hor, le_trans hlb hg, le_refl _, hd, hok⟩
    · exact t7 e h
  · have hsum := sumC_setP (contribA s.now) pid
      { c with phase := .inCashier s.now d } c _ hc
    rw [hsum]
    simp only [contribA, hph]
    linarith
  · have hsum := sumC_setP (contribC s.now) pid
      { c with phase := .inCashier s.now d } c _ hc
    rw [hsum]
    simp only [contribC, hph, sub_self]
    linarith


/-- Completing ATM service keeps the timed invariant: the credited busy
time `d` is exactly the elapsed time of the hold being removed
(`now = start + d`), so `busy + Σ elapsed` is unchanged by the credit and
the handover adds a hold of elapsed time 0. -/
theorem invT_finishAtm (cfg : Config) (lA lC : ℚ) (s : SimState) (pid : ℕ) (c : Cust)
    (st d : ℚ) (hS : StreamsOK cfg lA lC) (hB : InvB cfg s) (hT : InvT cfg lA lC s)
    (hc : lookupP pid s.procs = some c) (hph : c.phase = .inATM st d)
    (hnow : s.now = st + d)
    (hnone : ∀ e ∈ s.events, ∀ q, e.act = .resume q → q ≠ pid) :
    InvT cfg lA lC (finishAtm s pid c d) := by
  obtain ⟨t1, t2, t3, t4, t5, t6, t7, t8, t9, t10, t11, t12⟩ := hT
  have hpc := t7 (pid, c) (lookupP_some_mem pid c s.procs hc)
  rw [pInv, hph] at hpc
  obtain ⟨hw, ha, hst, hdur, hlAd⟩ := hpc
  replace hw : c.wentAtm = true := hw
  replace ha : c.arrival ≤ st := ha
  replace hdur : c.atmDur = d := hdur
  have hd0 : 0 ≤ d := le_trans hS.lA_nonneg hlAd
  rcases hq : s.atm.queue with _ | ⟨w, ws⟩
  · by_cases hcap : s.cashiers.usersCount < s.cashiers.capacity
    · simp only [finishAtm, Res.release, hq, Res.request, if_pos hcap, sched]
      refine ⟨t1, t2, ?_, ?_, ?_, ?_, ?_, t8, ?_, ?_, ?_, t12⟩
      · exact t3.orderedInsert _ _
      · intro e he
        rcases (mem_schedQ _ _ _).1 he with h | h
        · subst h
          exact le_refl _
        · exact t4 e h
      · intro e he
        rcases (mem_schedQ _ _ _).1 he with h | h
        · subst h
          intro p hp
          simp only [EvAct.resume.injEq] at hp
          subst hp
          exact ⟨_, lookupP_setP_self _ _ _ _ hc, Or.inr (Or.inr (Or.inl ⟨s.now, rfl⟩))⟩
        · intro p hp
          obtain ⟨cq, hcq, hrest⟩ := t5 e h p hp
          exact ⟨cq, by rw [lookupP_setP_ne _ _ _ _ (hnone e h p hp)]; exact hcq, hrest⟩
      · apply nodup_filterMap_schedQ
        simp only [List.filterMap_cons, resumePid, List.nodup_cons]
        refine ⟨fun hmem => ?_, t6⟩
        obtain ⟨e, he, hact⟩ := (mem_resumes _ _).1 hmem
        exact hnone e he pid hact rfl
      · intro e he
        rcases mem_setP _ _ _ _ he with h | h
        · subst h
          refine ⟨Or.inl hw, ?_, le_refl _, ?_⟩
          · simp [cashLB, hw, hdur]
            linarith
          · intro h2
            rw [hdur]
            exact hlAd
        · exact t7 e h
      · have hsum := sumC_setP (contribA s.now) pid
          { c with phase := .cashGranted s.now } c _ hc
        rw [hsum]
        simp only [contribA, hph]
        linarith
      · have hsum := sumC_setP (contribC s.now) pid
          { c with phase := .cashGranted s.now } c _ hc
        rw [hsum]
        simp only [contribC, hph, sub_self]
        linarith
      · show 0 ≤ s.atm_busy_time + d
        linarith
    · simp only [finishAtm, Res.release, hq, Res.request, if_neg hcap]
      refine ⟨t1, t2, t3, t4, ?_, t6, ?_, t8, ?_, ?_, ?_, t12⟩
      · intro e he p hp
        obtain ⟨cq, hcq, hrest⟩ := t5 e he p hp
        exact ⟨cq, by rw [lookupP_setP_ne _ _ _ _ (hnone e he p hp)]; exact hcq, hrest⟩
      · intro e he
        rcases mem_setP _ _ _ _ he with h | h
        · subst h
          refine ⟨Or.inl hw, ?_, ?_⟩
          · simp [cashLB, hw, hdur]
            linarith
          · intro h2
            rw [hdur]
            exact hlAd
        · exact t7 e h
      · have hsum := sumC_setP (contribA s.now) pid
          { c with phase := .waitingCashier } c _ hc
        rw [hsum]
        simp only [contribA, hph]
        linarith
      · have hsum := sumC_setP (contribC s.now) pid
          { c with phase := .waitingCashier } c _ hc
        rw [hsum]
        simp only [contribC, hph]
        linarith
      · show 0 ≤ s.atm_busy_time + d
        linarith
  · have hwmem : w ∈ s.atm.queue := by
      rw [hq]
      exact List.mem_cons_self _ _
    obtain ⟨cw, hcw, hphw⟩ := hB.atm_q w hwmem
    have hwpid : w ≠ pid :=
      ne_of_lookupP_phase _ _ _ _ _ hc hcw
        (by rw [hph, hphw]; intro h; exact Phase.noConfusion h)
    have hpw := t7 (w, cw) (lookupP_some_mem w cw s.procs hcw)
    rw [pInv, hphw] at hpw
    obtain ⟨hww, hwa⟩ := hpw
    have hlk_pid : lookupP pid (setP w { cw with phase := .atmGranted s.now } s.procs)
        = some c := by
      rw [lookupP_setP_ne _ _ _ _ (Ne.symm hwpid)]
      exact hc
    have hres_w : ∀ e ∈ s.events, ∀ q, e.act = .resume q → q ≠ w := by
      intro e he q hact heq
      subst heq
      obtain ⟨cq, hcq, hrest⟩ := t5 e he q hact
      rw [hcw] at hcq
      injection hcq with hcq
      subst hcq
      rcases hrest with ⟨g2, hg2⟩ | ⟨st2, d2, hg2, -⟩ | ⟨g2, hg2⟩ | ⟨st2, d2, hg2, -⟩ <;>
        rw [hphw] at hg2 <;> exact Phase.noConfusion hg2
    have hsum_wA := sumC_setP (contribA s.now) w
      { cw with phase := .atmGranted s.now } cw _ hcw
    have hsum_wC := sumC_setP (contribC s.now) w
      { cw with phase := .atmGranted s.now } cw _ hcw
    by_cases hcap : s.cashiers.usersCount < s.cashiers.capacity
    · simp only [finishAtm, Res.release, hq, handoverAtm, hcw, Res.request, if_pos hcap, sched]
      refine ⟨t1, t2, ?_, ?_, ?_, ?_, ?_, t8, ?_, ?_, ?_, t12⟩
      · exact (t3.orderedInsert _ _).orderedInsert _ _
      · intro e he
        rcases (mem_schedQ _ _ _).1 he with h | h
        · subst h
          exact le_refl _
        · rcases (mem_schedQ _ _ _).1 h with h2 | h2
          · subst h2
            exact le_refl _
          · exact t4 e h2
      · intro e he
        rcases (mem_schedQ _ _ _).1 he with h | h
        · subst h
          intro p hp
          simp only [EvAct.resume.injEq] at hp
          subst hp
          exact ⟨_, lookupP_setP_self _ _ _ _ hlk_pid, Or.inr (Or.inr (Or.inl ⟨s.now, rfl⟩))⟩
        · rcases (mem_schedQ _ _ _).1 h with h2 | h2
          · subst h2
            intro p hp
            simp only [EvAct.resume.injEq] at hp
            subst hp
            refine ⟨{ cw with phase := .atmGranted s.now }, ?_, Or.inl ⟨s.now, rfl⟩⟩
            rw [lookupP_setP_ne _ _ _ _ hwpid]
            exact lookupP_setP_self _ _ _ _ hcw
          · intro p hp
            obtain ⟨cq, hcq, hrest⟩ := t5 e h2 p hp
            refine ⟨cq, ?_, hrest⟩
            rw [lookupP_setP_ne _ _ _ _ (hnone e h2 p hp),
                lookupP_setP_ne _ _ _ _ (hres_w e h2 p hp)]
            exact hcq
      · apply nodup_filterMap_schedQ
        simp only [List.filterMap_cons, resumePid]
        rw [List.nodup_cons]
        constructor
        · intro hmem
          obtain ⟨e, he, hact⟩ := (mem_resumes _ _).1
            ((filterMap_schedQ_perm resumePid _ _).subset hmem)
          rcases (List.mem_cons.1 he) with h2 | h2
          · subst h2
            simp only [EvAct.resume.injEq] at hact
            exact hwpid hact
          · exact hnone e h2 pid hact rfl
        · apply nodup_filterMap_schedQ
          simp only [List.filterMap_cons, resumePid, List.nodup_cons]
          refine ⟨fun hmem => ?_, t6⟩
          obtain ⟨e, he, hact⟩ := (mem_resumes _ _).1 hmem
          exact hres_w e he w hact rfl
      · intro e he
        rcases mem_setP _ _ _ _ he with h | h
        · subst h
          refine ⟨Or.inl hw, ?_, le_refl _, ?_⟩
          · simp [cashLB, hw, hdur]
            linarith
          · intro h2
            rw [hdur]
            exact hlAd
        · rcases mem_setP _ _ _ _ h with h2 | h2
          · subst h2
            exact ⟨hww, hwa, le_refl _⟩
          · exact t7 e h2
      · have hsum := sumC_setP (contribA s.now) pid
          { c with phase := .cashGranted s.now } c _ hlk_pid
        rw [hsum, hsum_wA]
        simp only [contribA, hph, hphw, sub_self]
        linarith
      · have hsum := sumC_setP (contribC s.now) pid
          { c with phase := .cashGranted s.now } c _ hlk_pid
        rw [hsum, hsum_wC]
        simp only [contribC, hph, hphw, sub_self]
        linarith
      · show 0 ≤ s.atm_busy_time + d
        linarith
    · simp only [finishAtm, Res.release, hq, handoverAtm, hcw, Res.request, if_neg hcap, sched]
      refine ⟨t1, t2, ?_, ?_, ?_, ?_, ?_, t8, ?_, ?_, ?_, t12⟩
      · exact t3.orderedInsert _ _
      · intro e he
        rcases (mem_schedQ _ _ _).1 he with h | h
        · subst h
          exact le_refl _
        · exact t4 e h
      · intro e he
        rcases (mem_schedQ _ _ _).1 he with h | h
        · subst h
          intro p hp
          simp only [EvAct.resume.injEq] at hp
          subst hp
          refine ⟨{ cw with phase := .atmGranted s.now }, ?_, Or.inl ⟨s.now, rfl⟩⟩
          rw [lookupP_setP_ne _ _ _ _ hwpid]
          exact lookupP_setP_self _ _ _ _ hcw
        · intro p hp
          obtain ⟨cq, hcq, hrest⟩ := t5 e h p hp
          refine ⟨cq, ?_, hrest⟩
          rw [lookupP_setP_ne _ _ _ _ (hnone e h p hp),
              lookupP_setP_ne _ _ _ _ (hres_w e h p hp)]
          exact hcq
      · apply nodup_filterMap_schedQ
        simp only [List.filterMap_cons, resumePid, List.nodup_cons]
        refine ⟨fun hmem => ?_, t6⟩
        obtain ⟨e, he, hact⟩ := (mem_resumes _ _).1 hmem
        exact hres_w e he w hact rfl
      · intro e he
        rcases mem_setP _ _ _ _ he with h | h
        · subst h
          refine ⟨Or.inl hw, ?_, ?_⟩
          · simp [cashLB, hw, hdur]
            linarith
          · intro h2
            rw [hdur]
            exact hlAd
        · rcases mem_setP _ _ _ _ h with h2 | h2
          · subst h2
            exact ⟨hww, hwa, le_refl _⟩
          · exact t7 e h2
      · have hsum := sumC_setP (contribA s.now) pid
          { c with phase := .waitingCashier } c _ hlk_pid
        rw [hsum, hsum_wA]
        simp only [contribA, hph, hphw, sub_self]
        linarith
      · have hsum := sumC_setP (contribC s.now) pid
          { c with phase := .waitingCashier } c _ hlk_pid
        rw [hsum, hsum_wC]
        simp only [contribC, hph, hphw]
        linarith
      · show 0 ≤ s.atm_busy_time + d
        linarith


/-- The sampling block does not touch any quantity the timed invariant
speaks about. -/
theorem invT_recordSample (cfg : Config) (lA lC : ℚ) (s : SimState)
    (hT : InvT cfg lA lC s) : InvT cfg lA lC (recordSample s) := by
  obtain ⟨t1, t2, t3, t4, t5, t6, t7, t8, t9, t10, t11, t12⟩ := hT
  unfold recordSample
  by_cases hrec : (1 : ℚ) ≤ s.now - s.last_recorded_time
  · rw [if_pos hrec]
    exact ⟨t1, t2, t3, t4, t5, t6, t7, t8, t9, t10, t11, t12⟩
  · rw [if_neg hrec]
    exact ⟨t1, t2, t3, t4, t5, t6, t7, t8, t9, t10, t11, t12⟩

/-- Completing cashier service keeps the timed invariant; in particular
the recorded sojourn `now − arrival` is at least `lA + lC`. -/
theorem invT_finishCash (cfg : Config) (lA lC : ℚ) (s : SimState) (pid : ℕ) (c : Cust)
    (st d : ℚ) (hS : StreamsOK cfg lA lC) (hB : InvB cfg s) (hT : InvT cfg lA lC s)
    (hc : lookupP pid s.procs = some c) (hph : c.phase = .inCashier st d)
    (hnow : s.now = st + d)
    (hnone : ∀ e ∈ s.events, ∀ q, e.act = .resume q → q ≠ pid) :
    InvT cfg lA lC (finishCash s pid c d) := by
  obtain ⟨t1, t2, t3, t4, t5, t6, t7, t8, t9, t10, t11, t12⟩ := hT
  have hpc := t7 (pid, c) (lookupP_some_mem pid c s.procs hc)
  rw [pInv, hph] at hpc
  obtain ⟨hor, hlb, hst, hlCd, hok⟩ := hpc
  replace hor : c.wentAtm = true ∨ lA = 0 := hor
  replace hlb : cashLB c ≤ st := hlb
  replace hok : atmDurOK lA c := hok
  have hd0 : 0 ≤ d := le_trans hS.lC_nonneg hlCd
  rw [cashLB] at hlb
  have hflow : lA + lC ≤ s.now - c.arrival := by
    by_cases hwa : c.wentAtm = true
    · have h1 := hok hwa
      rw [if_pos hwa] at hlb
      linarith
    · rw [if_neg hwa] at hlb
      rcases hor with hw2 | h0
      · exact absurd hw2 hwa
      · linarith
  apply invT_recordSample
  rcases hq : s.cashiers.queue with _ | ⟨w, ws⟩
  · simp only [finishCash, Res.release, hq]
    refine ⟨t1, t2, t3, t4, ?_, t6, ?_, ?_, ?_, ?_, t11, ?_⟩
    · intro e he p hp
      obtain ⟨cq, hcq, hrest⟩ := t5 e he p hp
      exact ⟨cq, by rw [lookupP_setP_ne _ _ _ _ (hnone e he p hp)]; exact hcq, hrest⟩
    · intro e he
      rcases mem_setP _ _ _ _ he with h | h
      · subst h
        simp [pInv]
      · exact t7 e h
    · intro x hx
      rcases List.mem_append.1 hx with h | h
      · exact t8 x h
      · rcases List.mem_singleton.1 h with rfl
        exact hflow
    · have hsum := sumC_setP (contribA s.now) pid { c with phase := .done } c _ hc
      rw [hsum]
      simp only [contribA, hph]
      linarith
    · have hsum := sumC_setP (contribC s.now) pid { c with phase := .done } c _ hc
      rw [hsum]
      simp only [contribC, hph]
      linarith
    · show 0 ≤ s.cashier_busy_time + d
      linarith
  · have hwmem : w ∈ s.cashiers.queue := by
      rw [hq]
      exact List.mem_cons_self _ _
    obtain ⟨cw, hcw, hphw⟩ := hB.cash_q w hwmem
    have hwpid : w ≠ pid :=
      ne_of_lookupP_phase _ _ _ _ _ hc hcw
        (by rw [hph, hphw]; intro h; exact Phase.noConfusion h)
    have hpw := t7 (w, cw) (lookupP_some_mem w cw s.procs hcw)
    rw [pInv, hphw] at hpw
    obtain ⟨hor_w, hlb_w, hok_w⟩ := hpw
    have hlk_pid : lookupP pid (setP w { cw with phase := .cashGranted s.now } s.procs)
        = some c := by
      rw [lookupP_setP_ne _ _ _ _ (Ne.symm hwpid)]
      exact hc
    have hres_w : ∀ e ∈ s.events, ∀ q, e.act = .resume q → q ≠ w := by
      intro e he q hact heq
      subst heq
      obtain ⟨cq, hcq, hrest⟩ := t5 e he q hact
      rw [hcw] at hcq
      injection hcq with hcq
      subst hcq
      rcases hrest with ⟨g2, hg2⟩ | ⟨st2, d2, hg2, -⟩ | ⟨g2, hg2⟩ | ⟨st2, d2, hg2, -⟩ <;>
        rw [hphw] at hg2 <;> exact Phase.noConfusion hg2
    have hsum_wA := sumC_setP (contribA s.now) w
      { cw with phase := .cashGranted s.now } cw _ hcw
    have hsum_wC := sumC_setP (contribC s.now) w
      { cw with phase := .cashGranted s.now } cw _ hcw
    simp only [finishCash, Res.release, hq, handoverCash, hcw, sched]
    refine ⟨t1, t2, ?_, ?_, ?_, ?_, ?_, ?_, ?_, ?_, t11, ?_⟩
    · exact t3.orderedInsert _ _
    · intro e he
      rcases (mem_schedQ _ _ _).1 he with h | h
      · subst h
        exact le_refl _
      · exact t4 e h
    · intro e he
      rcases (mem_schedQ _ _ _).1 he with h | h
      · subst h
        intro p hp
        simp only [EvAct.resume.injEq] at hp
        subst hp
        refine ⟨{ cw with phase := .cashGranted s.now }, ?_,
          Or.inr (Or.inr (Or.inl ⟨s.now, rfl⟩))⟩
        rw [lookupP_setP_ne _ _ _ _ hwpid]
        exact lookupP_setP_self _ _ _ _ hcw
      · intro p hp
        obtain ⟨cq, hcq, hrest⟩ := t5 e h p hp
        refine ⟨cq, ?_, hrest⟩
        rw [lookupP_setP_ne _ _ _ _ (hnone e h p hp),
            lookupP_setP_ne _ _ _ _ (hres_w e h p hp)]
        exact hcq
    · apply nodup_filterMap_schedQ
      simp only [List.filterMap_cons, resumePid, List.nodup_cons]
      refine ⟨fun hmem => ?_, t6⟩
      obtain ⟨e, he, hact⟩ := (mem_resumes _ _).1 hmem
      exact hres_w e he w hact rfl
    · intro e he
      rcases mem_setP _ _ _ _ he with h | h
      · subst h
        simp [pInv]
      · rcases mem_setP _ _ _ _ h with h2 | h2
        · subst h2
          exact ⟨hor_w, hlb_w, le_refl _, hok_w⟩
        · exact t7 e h2
    · intro x hx
      rcases List.mem_append.1 hx with h | h
      · exact t8 x h
      · rcases List.mem_singleton.1 h with rfl
        exact hflow
    · have hsum := sumC_setP (contribA s.now) pid { c with phase := .done } c _ hlk_pid
      rw [hsum, hsum_wA]
      simp only [contribA, hph, hphw]
      linarith
    · have hsum := sumC_setP (contribC s.now) pid { c with phase := .done } c _ hlk_pid
      rw [hsum, hsum_wC]
      simp only [contribC, hph, hphw, sub_self]
      linarith
    · show 0 ≤ s.cashier_busy_time + d
      linarith


theorem sampleTri_ok_eq (p : ℚ × ℚ × ℚ) (x y : ℚ) (h : sampleTri p x = .ok y) :
    y = x := by
  unfold sampleTri at h
  split_ifs at h <;> injection h with h2 <;> exact h2.symm

/-- Executing one event preserves the timed invariant. -/
theorem invT_step_ok (cfg : Config) (lA lC : ℚ) (s s' : SimState)
    (hS : StreamsOK cfg lA lC) (hB : InvB cfg s) (hT : InvT cfg lA lC s)
    (h : step cfg s = .ok s') : InvT cfg lA lC s' := by
  unfold step at h
  rcases hev : s.events with _ | ⟨ev, rest⟩
  · rw [hev] at h
    simp at h
  simp only [hev] at h
  by_cases hhor : cfg.sim_time ≤ ev.time
  · rw [if_pos hhor] at h
    exact absurd h (by simp)
  · rw [if_neg hhor] at h
    have hB0 := invB_advanced cfg s ev rest hB hev
    have hT0 := invT_advanced cfg lA lC s ev rest hB hT hev hhor
    rcases hact : ev.act with _ | _ | pid | pid <;> simp only [hact] at h
    · rw [StepRes.ok.injEq] at h
      exact h ▸ invT_doGenStart cfg lA lC _ hS hT0
    · rw [StepRes.ok.injEq] at h
      exact h ▸ invT_doGenArrive cfg lA lC _ hS hT0
    · rw [StepRes.ok.injEq] at h
      obtain ⟨hfresh, -⟩ :=
        hB.start_fresh ev (hev ▸ List.mem_cons_self _ _) pid hact
      exact h ▸ invT_doStart cfg lA lC _ pid hS hT0 hfresh
    · have hnone : ∀ e ∈ rest, ∀ q, e.act = .resume q → q ≠ pid := by
        have hnd := hT.resume_nd
        rw [hev, List.filterMap_cons] at hnd
        rw [show resumePid ev = some pid from (resumePid_eq_some ev pid).2 hact] at hnd
        intro e he q hq rfl2
        exact (List.nodup_cons.1 hnd).1 ((mem_resumes _ _).2 ⟨e, he, rfl2 ▸ hq⟩)
      obtain ⟨c0, hc0, hdisj⟩ :=
        hT.resume_ok ev (hev ▸ List.mem_cons_self _ _) pid hact
      simp only [doResume] at h
      rcases hlk : lookupP pid s.procs with _ | c <;> simp only [hlk] at h
      · rw [StepRes.ok.injEq] at h
        exact h ▸ hT0
      · rw [hlk] at hc0
        injection hc0 with hc0
        subst hc0
        rcases hph : c.phase with _ | g | ⟨st, d⟩ | _ | g | ⟨st, d⟩ | _ <;>
          simp only [hph] at h
        · rw [StepRes.ok.injEq] at h
          exact h ▸ hT0
        · rcases htri : sampleTri cfg.atm_service_time (cfg.atmTriDraws s.ia)
            with m | dd <;> simp only [htri] at h
          · exact absurd h (by simp)
          · rw [StepRes.ok.injEq] at h
            have hd : lA ≤ dd := by
              rw [sampleTri_ok_eq _ _ _ htri]
              exact hS.atm_lb s.ia
            exact h ▸ invT_drawAtm cfg lA lC _ pid c g dd hS hT0 hlk hph hd hnone
        · rw [StepRes.ok.injEq] at h
          have hnow : ev.time = st + d := by
            rcases hdisj with ⟨g2, hg2⟩ | ⟨st2, d2, hg2, ht2⟩ | ⟨g2, hg2⟩ | ⟨st2, d2, hg2, ht2⟩ <;>
              rw [hph] at hg2
            · exact Phase.noConfusion hg2
            · injection hg2 with h1 h2
              rw [ht2, h1, h2]
            · exact Phase.noConfusion hg2
            · exact Phase.noConfusion hg2
          exact h ▸ invT_finishAtm cfg lA lC _ pid c st d hS hB0 hT0 hlk hph hnow hnone
        · rw [StepRes.ok.injEq] at h
          exact h ▸ hT0
        · rcases htri : sampleTri cfg.cashier_service_time (cfg.cashTriDraws s.ic)
            with m | dd <;> simp only [htri] at h
          · exact absurd h (by simp)
          · rw [StepRes.ok.injEq] at h
            have hd : lC ≤ dd := by
              rw [sampleTri_ok_eq _ _ _ htri]
              exact hS.cash_lb s.ic
            exact h ▸ invT_drawCash cfg lA lC _ pid c g dd hS hT0 hlk hph hd hnone
        · rw [StepRes.ok.injEq] at h
          have hnow : ev.time = st + d := by
            rcases hdisj with ⟨g2, hg2⟩ | ⟨st2, d2, hg2, ht2⟩ | ⟨g2, hg2⟩ | ⟨st2, d2, hg2, ht2⟩ <;>
              rw [hph] at hg2
            · exact Phase.noConfusion hg2
            · exact Phase.noConfusion hg2
            · exact Phase.noConfusion hg2
            · injection hg2 with h1 h2
              rw [ht2, h1, h2]
          exact h ▸ invT_finishCash cfg lA lC _ pid c st d hS hB0 hT0 hlk hph hnow hnone
        · rw [StepRes.ok.injEq] at h
          exact h ▸ hT0

/-- The run-loop step preserves the timed invariant. -/
theorem invT_stepState (cfg : Config) (lA lC : ℚ) (s : SimState)
    (hS : StreamsOK cfg lA lC) (hB : InvB cfg s) (hT : InvT cfg lA lC s) :
    InvT cfg lA lC (stepState cfg s) := by
  unfold stepState
  rcases h : step cfg s with s' | _ | m
  · exact invT_step_ok cfg lA lC s s' hS hB hT h
  · exact hT
  · exact hT

/-- The timed invariant holds at every point of every run whose streams
satisfy `StreamsOK`. -/
theorem invT_runState (cfg : Config) (lA lC : ℚ) (hS : StreamsOK cfg lA lC) (n : ℕ) :
    InvT cfg lA lC (runState cfg n) := by
  induction n with
  | zero => exact invT_init cfg lA lC
  | succ n ih => exact invT_stepState cfg lA lC _ hS (invB_runState cfg n) ih


/-! ## Which steps touch the recorded statistics

Every handler except cashier-service completion leaves `flow_time`,
`inv_time`, `inv_queue` and `last_recorded_time` untouched; a completion
appends the sojourn to `flow_time` and, exactly when the 1-unit guard
holds, appends one queue-length sample. -/

theorem doGenStart_stats (cfg : Config) (s : SimState) :
    (doGenStart cfg s).flow_time = s.flow_time ∧
    (doGenStart cfg s).inv_time = s.inv_time ∧
    (doGenStart cfg s).inv_queue = s.inv_queue ∧
    (doGenStart cfg s).last_recorded_time = s.last_recorded_time := by
  simp [doGenStart, sched]

theorem doGenArrive_stats (cfg : Config) (s : SimState) :
    (doGenArrive cfg s).flow_time = s.flow_time ∧
    (doGenArrive cfg s).inv_time = s.inv_time ∧
    (doGenArrive cfg s).inv_queue = s.inv_queue ∧
    (doGenArrive cfg s).last_recorded_time = s.last_recorded_time := by
  simp [doGenArrive, sched]

theorem doStart_stats (cfg : Config) (s : SimState) (pid : ℕ) :
    (doStart cfg s pid).flow_time = s.flow_time ∧
    (doStart cfg s pid).inv_time = s.inv_time ∧
    (doStart cfg s pid).inv_queue = s.inv_queue ∧
    (doStart cfg s pid).last_recorded_time = s.last_recorded_time := by
  by_cases hu : cfg.uniDraws s.iu < cfg.atm_prob <;>
    by_cases hcap1 : s.atm.usersCount < s.atm.capacity <;>
      by_cases hcap2 : s.cashiers.usersCount < s.cashiers.capacity <;>
        simp [doStart, Res.request, sched, hu, hcap1, hcap2]

theorem finishAtm_stats (cfg : Config) (s : SimState) (pid : ℕ) (c : Cust) (d : ℚ) :
    (finishAtm s pid c d).flow_time = s.flow_time ∧
    (finishAtm s pid c d).inv_time = s.inv_time ∧
    (finishAtm s pid c d).inv_queue = s.inv_queue ∧
    (finishAtm s pid c d).last_recorded_time = s.last_recorded_time := by
  rcases hq : s.atm.queue with _ | ⟨w, ws⟩
  · by_cases hcap : s.cashiers.usersCount < s.cashiers.capacity <;>
      simp [finishAtm, Res.release, hq, Res.request, sched, hcap]
  · rcases hcw : lookupP w s.procs with _ | cw <;>
      by_cases hcap : s.cashiers.usersCount < s.cashiers.capacity <;>
        simp [finishAtm, Res.release, hq, handoverAtm, hcw, Res.request, sched, hcap]

theorem finishCash_stats (s : SimState) (pid : ℕ) (c : Cust) (d : ℚ) :
    (finishCash s pid c d).now = s.now ∧
    (finishCash s pid c d).flow_time = s.flow_time ++ [s.now - c.arrival] ∧
    ((¬(1 : ℚ) ≤ s.now - s.last_recorded_time ∧
      (finishCash s pid c d).inv_time = s.inv_time ∧
      (finishCash s pid c d).inv_queue = s.inv_queue ∧
      (finishCash s pid c d).last_recorded_time = s.last_recorded_time) ∨
     ((1 : ℚ) ≤ s.now - s.last_recorded_time ∧
      (finishCash s pid c d).inv_time = s.inv_time ++ [(finishCash s pid c d).now] ∧
      (finishCash s pid c d).inv_queue = s.inv_queue ++
        [((finishCash s pid c d).atm.queue.length,
          (finishCash s pid c d).cashiers.queue.length)] ∧
      (finishCash s pid c d).last_recorded_time = (finishCash s pid c d).now)) := by
  by_cases hrec : (1 : ℚ) ≤ s.now - s.last_recorded_time
  · rcases hq : s.cashiers.queue with _ | ⟨w, ws⟩
    · refine ⟨?_, ?_, Or.inr ⟨hrec, ?_, ?_, ?_⟩⟩ <;>
        simp [finishCash, Res.release, hq, recordSample, sched, hrec]
    · rcases hcw : lookupP w s.procs with _ | cw <;>
        [refine ⟨?_, ?_, Or.inr ⟨hrec, ?_, ?_, ?_⟩⟩;
         refine ⟨?_, ?_, Or.inr ⟨hrec, ?_, ?_, ?_⟩⟩] <;>
        simp [finishCash, Res.release, hq, handoverCash, hcw, recordSample, sched, hrec]
  · rcases hq : s.cashiers.queue with _ | ⟨w, ws⟩
    · refine ⟨?_, ?_, Or.inl ⟨hrec, ?_, ?_, ?_⟩⟩ <;>
        simp [finishCash, Res.release, hq, recordSample, sched, hrec]
    · rcases hcw : lookupP w s.procs with _ | cw <;>
        [refine ⟨?_, ?_, Or.inl ⟨hrec, ?_, ?_, ?_⟩⟩;
         refine ⟨?_, ?_, Or.inl ⟨hrec, ?_, ?_, ?_⟩⟩] <;>
        simp [finishCash, Res.release, hq, handoverCash, hcw, recordSample, sched, hrec]

/-- A single step changes the recorded statistics only when it is a
cashier-service completion: the sojourn is appended to `flow_time`, and
the queue-length sample is appended exactly when the 1-unit guard holds. -/
theorem step_stats_change (cfg : Config) (s s' : SimState) (h : step cfg s = .ok s') :
    (s'.flow_time = s.flow_time ∧ s'.inv_time = s.inv_time ∧
     s'.inv_queue = s.inv_queue ∧ s'.last_recorded_time = s.last_recorded_time) ∨
    (∃ ev rest pid c st d, s.events = ev :: rest ∧ ev.act = .resume pid ∧
      lookupP pid s.procs = some c ∧ c.phase = .inCashier st d ∧
      s'.flow_time = s.flow_time ++ [s'.now - c.arrival] ∧
      ((¬(1 : ℚ) ≤ s'.now - s.last_recorded_time ∧ s'.inv_time = s.inv_time ∧
        s'.inv_queue = s.inv_queue ∧ s'.last_recorded_time = s.last_recorded_time) ∨
       ((1 : ℚ) ≤ s'.now - s.last_recorded_time ∧ s'.inv_time = s.inv_time ++ [s'.now] ∧
        s'.inv_queue = s.inv_queue ++
          [(s'.atm.queue.length, s'.cashiers.queue.length)] ∧
        s'.last_recorded_time = s'.now))) := by
  unfold step at h
  rcases hev : s.events with _ | ⟨ev, rest⟩
  · rw [hev] at h
    simp at h
  simp only [hev] at h
  by_cases hhor : cfg.sim_time ≤ ev.time
  · rw [if_pos hhor] at h
    exact absurd h (by simp)
  · rw [if_neg hhor] at h
    rcases hact : ev.act with _ | _ | pid | pid <;> simp only [hact] at h
    · rw [StepRes.ok.injEq] at h
      exact Or.inl (h ▸ doGenStart_stats cfg _)
    · rw [StepRes.ok.injEq] at h
      exact Or.inl (h ▸ doGenArrive_stats cfg _)
    · rw [StepRes.ok.injEq] at h
      exact Or.inl (h ▸ doStart_stats cfg _ pid)
    · simp only [doResume] at h
      rcases hlk : lookupP pid s.procs with _ | c <;> simp only [hlk] at h
      · rw [StepRes.ok.injEq] at h
        subst h
        exact Or.inl ⟨rfl, rfl, rfl, rfl⟩
      · rcases hph : c.phase with _ | g | ⟨st, d⟩ | _ | g | ⟨st, d⟩ | _ <;>
          simp only [hph] at h
        · rw [StepRes.ok.injEq] at h
          subst h
          exact Or.inl ⟨rfl, rfl, rfl, rfl⟩
        · rcases htri : sampleTri cfg.atm_service_time (cfg.atmTriDraws s.ia)
            with m | dd <;> simp only [htri] at h
          · exact absurd h (by simp)
          · rw [StepRes.ok.injEq] at h
            subst h
            exact Or.inl ⟨by simp [sched], by simp [sched], by simp [sched], by simp [sched]⟩
        · rw [StepRes.ok.injEq] at h
          exact Or.inl (h ▸ finishAtm_stats cfg _ pid c d)
        · rw [StepRes.ok.injEq] at h
          subst h
          exact Or.inl ⟨rfl, rfl, rfl, rfl⟩
        · rcases htri : sampleTri cfg.cashier_service_time (cfg.cashTriDraws s.ic)
            with m | dd <;> simp only [htri] at h
          · exact absurd h (by simp)
          · rw [StepRes.ok.injEq] at h
            subst h
            exact Or.inl ⟨by simp [sched], by simp [sched], by simp [sched], by simp [sched]⟩
        · rw [StepRes.ok.injEq] at h
          subst h
          obtain ⟨hn, hf, hd⟩ := finishCash_stats
            { s with events := rest, now := ev.time, nevents := s.nevents + 1 } pid c d
          refine Or.inr ⟨ev, rest, pid, c, st, d, rfl, hact, hlk, hph, ?_, ?_⟩
          · rw [hn]
            exact hf
          · rcases hd with ⟨h1, h2, h3, h4⟩ | ⟨h1, h2, h3, h4⟩
            · refine Or.inl ⟨?_, h2, h3, h4⟩
              rw [hn]
              exact h1
            · refine Or.inr ⟨?_, h2, h3, h4⟩
              rw [hn]
              exact h1
        · rw [StepRes.ok.injEq] at h
          subst h
          exact Or.inl ⟨rfl, rfl, rfl, rfl⟩


/-- The cashier-request outcome for the finishing customer, case: no ATM
waiter, cashier slot free. -/
theorem finishAtm_phase_aux1 (s : SimState) (pid : ℕ) (c c₀ : Cust) (d : ℚ)
    (hc : lookupP pid s.procs = some c₀) (hq : s.atm.queue = [])
    (hcap : s.cashiers.usersCount < s.cashiers.capacity) :
    ∃ c', lookupP pid (finishAtm s pid c d).procs = some c' ∧
      ((∃ g, c'.phase = .cashGranted g) ∨ c'.phase = .waitingCashier) := by
  simp only [finishAtm, Res.release, hq, Res.request, if_pos hcap, sched]
  exact ⟨_, lookupP_setP_self _ _ _ _ hc, Or.inl ⟨s.now, rfl⟩⟩

/-- Case: no ATM waiter, cashier pool full. -/
theorem finishAtm_phase_aux2 (s : SimState) (pid : ℕ) (c c₀ : Cust) (d : ℚ)
    (hc : lookupP pid s.procs = some c₀) (hq : s.atm.queue = [])
    (hcap : ¬s.cashiers.usersCount < s.cashiers.capacity) :
    ∃ c', lookupP pid (finishAtm s pid c d).procs = some c' ∧
      ((∃ g, c'.phase = .cashGranted g) ∨ c'.phase = .waitingCashier) := by
  simp only [finishAtm, Res.release, hq, Res.request, if_neg hcap]
  exact ⟨_, lookupP_setP_self _ _ _ _ hc, Or.inr rfl⟩

/-- Case: an ATM waiter with no process record, cashier slot free. -/
theorem finishAtm_phase_aux3 (s : SimState) (pid w : ℕ) (c c₀ : Cust) (d : ℚ)
    (ws : List ℕ) (hc : lookupP pid s.procs = some c₀)
    (hq : s.atm.queue = w :: ws) (hcw : lookupP w s.procs = none)
    (hcap : s.cashiers.usersCount < s.cashiers.capacity) :
    ∃ c', lookupP pid (finishAtm s pid c d).procs = some c' ∧
      ((∃ g, c'.phase = .cashGranted g) ∨ c'.phase = .waitingCashier) := by
  simp only [finishAtm, Res.release, hq, handoverAtm, hcw, Res.request, if_pos hcap, sched]
  exact ⟨_, lookupP_setP_self _ _ _ _ hc, Or.inl ⟨s.now, rfl⟩⟩

/-- Case: an ATM waiter with no process record, cashier pool full. -/
theorem finishAtm_phase_aux4 (s : SimState) (pid w : ℕ) (c c₀ : Cust) (d : ℚ)
    (ws : List ℕ) (hc : lookupP pid s.procs = some c₀)
    (hq : s.atm.queue = w :: ws) (hcw : lookupP w s.procs = none)
    (hcap : ¬s.cashiers.usersCount < s.cashiers.capacity) :
    ∃ c', lookupP pid (finishAtm s pid c d).procs = some c' ∧
      ((∃ g, c'.phase = .cashGranted g) ∨ c'.phase = .waitingCashier) := by
  simp only [finishAtm, Res.release, hq, handoverAtm, hcw, Res.request, if_neg hcap]
  exact ⟨_, lookupP_setP_self _ _ _ _ hc, Or.inr rfl⟩

/-- Case: an ATM waiter is handed the slot, cashier slot free. -/
theorem finishAtm_phase_aux5 (s : SimState) (pid w : ℕ) (c c₀ cw : Cust) (d : ℚ)
    (ws : List ℕ) (hc : lookupP pid s.procs = some c₀)
    (hq : s.atm.queue = w :: ws) (hcw : lookupP w s.procs = some cw)
    (hcap : s.cashiers.usersCount < s.cashiers.capacity) :
    ∃ c', lookupP pid (finishAtm s pid c d).procs = some c' ∧
      ((∃ g, c'.phase = .cashGranted g) ∨ c'.phase = .waitingCashier) := by
  have hY : ∃ c₁, lookupP pid
      (setP w { cw with phase := .atmGranted s.now } s.procs) = some c₁ := by
    by_cases hwp : w = pid
    · subst hwp
      exact ⟨_, lookupP_setP_self _ _ _ _ hcw⟩
    · rw [lookupP_setP_ne _ _ _ _ (fun hqe => hwp hqe.symm)]
      exact ⟨c₀, hc⟩
  obtain ⟨c₁, hc₁⟩ := hY
  simp only [finishAtm, Res.release, hq, handoverAtm, hcw, Res.request, if_pos hcap, sched]
  exact ⟨_, lookupP_setP_self _ _ _ _ hc₁, Or.inl ⟨s.now, rfl⟩⟩

/-- Case: an ATM waiter is handed the slot, cashier pool full. -/
theorem finishAtm_phase_aux6 (s : SimState) (pid w : ℕ) (c c₀ cw : Cust) (d : ℚ)
    (ws : List ℕ) (hc : lookupP pid s.procs = some c₀)
    (hq : s.atm.queue = w :: ws) (hcw : lookupP w s.procs = some cw)
    (hcap : ¬s.cashiers.usersCount < s.cashiers.capacity) :
    ∃ c', lookupP pid (finishAtm s pid c d).procs = some c' ∧
      ((∃ g, c'.phase = .cashGranted g) ∨ c'.phase = .waitingCashier) := by
  have hY : ∃ c₁, lookupP pid
      (setP w { cw with phase := .atmGranted s.now } s.procs) = some c₁ := by
    by_cases hwp : w = pid
    · subst hwp
      exact ⟨_, lookupP_setP_self _ _ _ _ hcw⟩
    · rw [lookupP_setP_ne _ _ _ _ (fun hqe => hwp hqe.symm)]
      exact ⟨c₀, hc⟩
  obtain ⟨c₁, hc₁⟩ := hY
  simp only [finishAtm, Res.release, hq, handoverAtm, hcw, Res.request, if_neg hcap, sched]
  exact ⟨_, lookupP_setP_self _ _ _ _ hc₁, Or.inr rfl⟩

/-- After finishing ATM service the customer's next state is always a
cashier request: granted (`cashGranted`) or queued (`waitingCashier`).
There is no path from the ATM block to `Done`. -/
theorem finishAtm_phase (s : SimState) (pid : ℕ) (c c₀ : Cust) (d : ℚ)
    (hc : lookupP pid s.procs = some c₀) :
    ∃ c', lookupP pid (finishAtm s pid c d).procs = some c' ∧
      ((∃ g, c'.phase = .cashGranted g) ∨ c'.phase = .waitingCashier) := by
  rcases hq : s.atm.queue with _ | ⟨w, ws⟩
  · by_cases hcap : s.cashiers.usersCount < s.cashiers.capacity
    · exact finishAtm_phase_aux1 s pid c c₀ d hc hq hcap
    · exact finishAtm_phase_aux2 s pid c c₀ d hc hq hcap
  · rcases hcw : lookupP w s.procs with _ | cw
    · by_cases hcap : s.cashiers.usersCount < s.cashiers.capacity
      · exact finishAtm_phase_aux3 s pid w c c₀ d ws hc hq hcw hcap
      · exact finishAtm_phase_aux4 s pid w c c₀ d ws hc hq hcw hcap
    · by_cases hcap : s.cashiers.usersCount < s.cashiers.capacity
      · exact finishAtm_phase_aux5 s pid w c c₀ cw d ws hc hq hcw hcap
      · exact finishAtm_phase_aux6 s pid w c c₀ cw d ws hc hq hcw hcap

/-- numpy's validity condition for `np.random.triangular(low, mode, high)`:
`low ≤ mode ≤ high` and `low ≠ high`. -/
def triValid (p : ℚ × ℚ × ℚ) : Prop :=
  p.1 ≤ p.2.1 ∧ p.2.1 ≤ p.2.2 ∧ p.1 ≠ p.2.2

instance (p : ℚ × ℚ × ℚ) : Decidable (triValid p) := by
  unfold triValid; infer_instance

theorem sampleTri_err (p : ℚ × ℚ × ℚ) (x : ℚ) (m : String)
    (h : sampleTri p x = .error m) :
    ¬triValid p ∧ (m = "left > mode" ∨ m = "mode > right" ∨ m = "left == right") := by
  unfold sampleTri at h
  split_ifs at h with h1 h2 h3
  · injection h with h
    refine ⟨fun hv => ?_, Or.inl h.symm⟩
    exact absurd hv.1 (not_le.2 h1)
  · injection h with h
    refine ⟨fun hv => ?_, Or.inr (Or.inl h.symm)⟩
    exact absurd hv.2.1 (not_le.2 h2)
  · injection h with h
    refine ⟨fun hv => ?_, Or.inr (Or.inr h.symm)⟩
    exact absurd h3 hv.2.2


/-! ## Concrete configurations

Used to evaluate the embedding on closed inputs: a single-customer run, a
run with invalid triangular parameters, a run whose lone customer is
still in cashier service at the horizon, a run with no arrival before the
horizon, and the Scenario A configuration. -/

/-- One customer (arrival at 1, every later arrival past the horizon),
ATM-first with certainty, ATM draw 2, cashier draw 4, horizon 10. -/
def cfgOne : Config :=
  ⟨10, 1, (1, 2, 4), (2, 4, 6), 1, fun i => if i = 0 then 1 else 200,
   fun _ => 0, fun _ => 2, fun _ => 4⟩

/-- Same run but with an invalid ATM triple `(5, 2, 4)` (low > mode). -/
def cfgBad : Config :=
  { cfgOne with atm_service_time := (5, 2, 4) }

/-- Same run but the cashier draw (20) pushes completion past the
horizon: the customer finishes ATM service yet never finishes. -/
def cfgStall : Config :=
  { cfgOne with cashTriDraws := fun _ => 20 }

/-- No arrival before the horizon (first interarrival gap 100 > 10). -/
def cfgEmpty : Config :=
  { cfgOne with expDraws := fun _ => 100 }

/-- The Scenario A configuration: horizon 1000, 5 cashiers, ATM service
`(1,2,4)`, cashier service `(2,4,6)`, everyone ATM-first; one concrete
admissible draw sequence (gaps 1, uniforms 0, ATM draws 2, cashier
draws 4). -/
def cfgA : Config :=
  { cfgOne with sim_time := 1000, num_cashiers := 5, expDraws := fun _ => 1 }


/-! ## Claim C2 and C4 step-level facts -/

/-- Claim C2 (amended): a customer that finishes ATM service always
proceeds to the cashier step — its next state is `cashGranted` or
`waitingCashier`, never `done`.  The configuration carries no
`p_secondary_cashier` input; the behaviour is that of the claim with the
probability fixed at 1. -/
theorem claim2_always_proceeds_to_cashier (cfg : Config) (s s' : SimState)
    (pid : ℕ) (c : Cust) (st d : ℚ) (ev : Ev) (rest : List Ev)
    (h : step cfg s = .ok s') (hev : s.events = ev :: rest)
    (hact : ev.act = .resume pid)
    (hc : lookupP pid s.procs = some c) (hph : c.phase = .inATM st d) :
    ∃ c', lookupP pid s'.procs = some c' ∧
      ((∃ g, c'.phase = .cashGranted g) ∨ c'.phase = .waitingCashier) := by
  unfold step at h
  simp only [hev] at h
  by_cases hhor : cfg.sim_time ≤ ev.time
  · rw [if_pos hhor] at h
    exact absurd h (by simp)
  · rw [if_neg hhor] at h
    simp only [hact, doResume] at h
    rcases hlk : lookupP pid s.procs with _ | c2 <;> simp only [hlk] at h
    · rw [hlk] at hc
      exact Option.noConfusion hc
    · rw [hlk] at hc
      injection hc with hc
      subst hc
      simp only [hph] at h
      rw [StepRes.ok.injEq] at h
      subst h
      exact finishAtm_phase _ pid c2 c2 d hlk

/-- Claim C4 (amended): `BankSystem.__init__` performs no validation and
the run starts; an exception arises only when a resumption reaches a
service-time draw whose triangular triple is invalid, with numpy's
draw-time message. -/
theorem claim4_error_only_at_draw (cfg : Config) (s : SimState) (m : String)
    (h : step cfg s = .err m) :
    ∃ ev rest pid c, s.events = ev :: rest ∧ ev.act = .resume pid ∧
      lookupP pid s.procs = some c ∧
      (((∃ g, c.phase = .atmGranted g) ∧ ¬triValid cfg.atm_service_time) ∨
       ((∃ g, c.phase = .cashGranted g) ∧ ¬triValid cfg.cashier_service_time)) ∧
      (m = "left > mode" ∨ m = "mode > right" ∨ m = "left == right") := by
  unfold step at h
  rcases hev : s.events with _ | ⟨ev, rest⟩
  · rw [hev] at h
    simp at h
  simp only [hev] at h
  by_cases hhor : cfg.sim_time ≤ ev.time
  · rw [if_pos hhor] at h
    exact absurd h (by simp)
  · rw [if_neg hhor] at h
    rcases hact : ev.act with _ | _ | pid | pid <;> simp only [hact] at h
    · exact absurd h (by simp)
    · exact absurd h (by simp)
    · exact absurd h (by simp)
    · simp only [doResume] at h
      rcases hlk : lookupP pid s.procs with _ | c <;> simp only [hlk] at h
      · exact absurd h (by simp)
      · rcases hph : c.phase with _ | g | ⟨st, d⟩ | _ | g | ⟨st, d⟩ | _ <;>
          simp only [hph] at h
        · exact absurd h (by simp)
        · rcases htri : sampleTri cfg.atm_service_time (cfg.atmTriDraws s.ia)
            with m2 | dd <;> simp only [htri] at h
          · rw [StepRes.err.injEq] at h
            subst h
            obtain ⟨hnv, hm⟩ := sampleTri_err _ _ _ htri
            exact ⟨ev, rest, pid, c, rfl, hact, hlk, Or.inl ⟨⟨g, hph⟩, hnv⟩, hm⟩
          · exact absurd h (by simp)
        · exact absurd h (by simp)
        · exact absurd h (by simp)
        · rcases htri : sampleTri cfg.cashier_service_time (cfg.cashTriDraws s.ic)
            with m2 | dd <;> simp only [htri] at h
          · rw [StepRes.err.injEq] at h
            subst h
            obtain ⟨hnv, hm⟩ := sampleTri_err _ _ _ htri
            exact ⟨ev, rest, pid, c, rfl, hact, hlk, Or.inr ⟨⟨g, hph⟩, hnv⟩, hm⟩
          · exact absurd h (by simp)
        · exact absurd h (by simp)
        · exact absurd h (by simp)


/-! ## The claims -/

/-- Claim C8 (confirmed): at every simulated instant of every run the
number of current holders of the ATM never exceeds its capacity 1, and
the number of current cashier holders never exceeds `num_cashiers`. -/
theorem claim8_capacity_invariant (cfg : Config) (n : ℕ) :
    (runState cfg n).atm.usersCount ≤ 1 ∧
    (runState cfg n).cashiers.usersCount ≤ cfg.num_cashiers := by
  have h := invB_runState cfg n
  constructor
  · have h2 := h.atm_cap
    rw [h.atm_cap_eq] at h2
    exact h2
  · have h2 := h.cash_cap
    rw [h.cash_cap_eq] at h2
    exact h2

/-- Claim C9 (confirmed): for each resource the requests that entered the
waiting queue are granted in exactly their arrival order: at every point
of every run, the enqueue log equals the grant log followed by the
still-waiting queue, so grants from the queue form a prefix of the
enqueue order (FIFO), with the freed slot's continuation resumed through
the event queue. -/
theorem claim9_fifo_grant_order (cfg : Config) (n : ℕ) :
    (runState cfg n).atm.enqLog =
      (runState cfg n).atm.grantLog ++ (runState cfg n).atm.queue ∧
    (runState cfg n).cashiers.enqLog =
      (runState cfg n).cashiers.grantLog ++ (runState cfg n).cashiers.queue :=
  ⟨(invB_runState cfg n).atm_fifo, (invB_runState cfg n).cash_fifo⟩

/-- Claim C10 (confirmed): the queue-length sample series always has one
timestamp per sample, consecutive timestamps at least 1 apart (hence
non-decreasing), and a step appends a sample only when it also records a
customer departure (appending the sojourn to `flow_time`), with the
departure instant as the sample timestamp. -/
theorem claim10_sample_series (cfg : Config) :
    (∀ n, (runState cfg n).inv_time.length = (runState cfg n).inv_queue.length ∧
      List.Chain' (fun a b => a + 1 ≤ b) (runState cfg n).inv_time) ∧
    (∀ s s', step cfg s = .ok s' → s'.inv_time ≠ s.inv_time →
      (∃ x, s'.flow_time = s.flow_time ++ [x]) ∧
      s'.inv_time = s.inv_time ++ [s'.now]) := by
  constructor
  · intro n
    exact ⟨(invB_runState cfg n).inv_len, (invB_runState cfg n).inv_chain⟩
  · intro s s' h hne
    rcases step_stats_change cfg s s' h with ⟨-, hi, -, -⟩ |
      ⟨ev, rest, pid, c, st, d, -, -, -, -, hf, hd⟩
    · exact absurd hi hne
    · rcases hd with ⟨-, hi, -, -⟩ | ⟨-, hi, -, -⟩
      · exact absurd hi hne
      · exact ⟨⟨s'.now - c.arrival, hf⟩, hi⟩

/-- Claim C10 witness: in the one-customer run the completion step (event
7) appends the sample with the departure instant, and the series lengths
agree. -/
theorem claim10_sample_series_witness :
    ((runState cfgOne 7).inv_time.length = (runState cfgOne 7).inv_queue.length) ∧
    (runState cfgOne 7).inv_time =
      (runState cfgOne 6).inv_time ++ [(runState cfgOne 7).now] :=
  ⟨((claim10_sample_series cfgOne).1 7).1,
   ((claim10_sample_series cfgOne).2 (runState cfgOne 6) (runState cfgOne 7)
      (by with_unfolding_all rfl)
      (of_decide_eq_true (by with_unfolding_all rfl))).2⟩

/-- Claim C1 counterexample: in the one-customer run both requests are
granted (2 grants in total) yet no recorded sequence has 2 entries —
the code maintains no `wait_times` at all; the only per-customer sequence
is `flow_time` with one entry for the one finished customer. -/
theorem claim1_counterexample :
    (runState cfgOne 10).atm.grantCount + (runState cfgOne 10).cashiers.grantCount = 2 ∧
    (runState cfgOne 10).flow_time.length = 1 ∧
    (runState cfgOne 10).inv_time.length = 1 ∧
    (runState cfgOne 10).inv_queue.length = 1 :=
  ⟨by with_unfolding_all rfl, by with_unfolding_all rfl,
   by with_unfolding_all rfl, by with_unfolding_all rfl⟩

/-- Claim C1 (amended): no wait time is recorded anywhere.  `flow_time`
always has exactly one entry per finished customer, and the only step
that appends to it is a cashier-service completion, which appends the
sojourn `now − arrival` — grants append nothing. -/
theorem claim1_no_wait_times_recorded (cfg : Config) :
    (∀ n, (runState cfg n).flow_time.length =
      cntC Cust.finished (runState cfg n).procs) ∧
    (∀ s s', step cfg s = .ok s' → s'.flow_time ≠ s.flow_time →
      ∃ ev rest pid c st d, s.events = ev :: rest ∧ ev.act = .resume pid ∧
        lookupP pid s.procs = some c ∧ c.phase = .inCashier st d ∧
        s'.flow_time = s.flow_time ++ [s'.now - c.arrival]) := by
  constructor
  · intro n
    exact (invB_runState cfg n).flow_done
  · intro s s' h hne
    rcases step_stats_change cfg s s' h with ⟨hf, -, -, -⟩ |
      ⟨ev, rest, pid, c, st, d, h1, h2, h3, h4, hf, -⟩
    · exact absurd hf hne
    · exact ⟨ev, rest, pid, c, st, d, h1, h2, h3, h4, hf⟩

/-- Claim C1 witness: the conservation part at the end of the
one-customer run, and the completion step appending the single sojourn. -/
theorem claim1_no_wait_times_recorded_witness :
    (runState cfgOne 7).flow_time.length =
      cntC Cust.finished (runState cfgOne 7).procs ∧
    (runState cfgOne 7).flow_time = (runState cfgOne 6).flow_time ++ [6] := by
  have happ := (claim1_no_wait_times_recorded cfgOne).2
    (runState cfgOne 6) (runState cfgOne 7) (by with_unfolding_all rfl)
    (of_decide_eq_true (by with_unfolding_all rfl))
  exact ⟨(claim1_no_wait_times_recorded cfgOne).1 7, by with_unfolding_all rfl⟩

/-- Claim C2 counterexample: with `atm_prob = 1` the single (ATM-first)
customer finishes only after being granted the cashier and holding it for
its full service draw — it cannot transition to `Done` bypassing the
cashier, and `Config` (like `BankSystem.__init__`) has no
`p_secondary_cashier` input. -/
theorem claim2_counterexample :
    (runState cfgOne 10).procs = [(0, ⟨1, true, 2, Phase.done⟩)] ∧
    (runState cfgOne 10).cashiers.grantCount = 1 ∧
    (runState cfgOne 10).cashier_busy_time = 4 :=
  ⟨by with_unfolding_all rfl, by with_unfolding_all rfl, by with_unfolding_all rfl⟩

/-- Claim C2 witness: the one-customer run's ATM-completion step leaves
the customer granted at the cashier. -/
theorem claim2_always_proceeds_to_cashier_witness :
    lookupP 0 (runState cfgOne 5).procs = some ⟨1, true, 2, Phase.cashGranted 3⟩ := by
  have happ := claim2_always_proceeds_to_cashier cfgOne
    (runState cfgOne 4) (runState cfgOne 5) 0 ⟨1, true, 2, Phase.inATM 1 2⟩ 1 2
    ⟨3, 5, .resume 0⟩ [⟨201, 3, .genArrive⟩]
    (by with_unfolding_all rfl) (by with_unfolding_all rfl) rfl
    (by with_unfolding_all rfl) rfl
  with_unfolding_all rfl

/-- Claim C3 counterexample: a run with no customer activity (first
arrival after the horizon) executes one event, stops, and records zero
samples over a horizon of 10 time units — there is no periodic monitor
appending one record per time unit. -/
theorem claim3_counterexample :
    cfgEmpty.sim_time = 10 ∧ (runState cfgEmpty 5).inv_time = [] ∧
    (runState cfgEmpty 5).nevents = 1 ∧
    step cfgEmpty (runState cfgEmpty 5) = .stop :=
  ⟨rfl, by with_unfolding_all rfl, by with_unfolding_all rfl, by with_unfolding_all rfl⟩

/-- Claim C3 (amended): sampling happens only inside a customer
completion: a step either leaves the sample series untouched, or it is a
cashier-service completion at which at least 1 time unit has passed since
`last_recorded_time`, and it appends the timestamp and the two queue
lengths (no in-service counts are recorded). -/
theorem claim3_sampling_inside_completions (cfg : Config) (s s' : SimState)
    (h : step cfg s = .ok s') :
    (s'.inv_time = s.inv_time ∧ s'.inv_queue = s.inv_queue ∧
     s'.last_recorded_time = s.last_recorded_time) ∨
    (∃ ev rest pid c st d, s.events = ev :: rest ∧ ev.act = .resume pid ∧
      lookupP pid s.procs = some c ∧ c.phase = .inCashier st d ∧
      (1 : ℚ) ≤ s'.now - s.last_recorded_time ∧
      s'.inv_time = s.inv_time ++ [s'.now] ∧
      s'.inv_queue = s.inv_queue ++ [(s'.atm.queue.length, s'.cashiers.queue.length)] ∧
      s'.last_recorded_time = s'.now) := by
  rcases step_stats_change cfg s s' h with ⟨-, h1, h2, h3⟩ |
    ⟨ev, rest, pid, c, st, d, e1, e2, e3, e4, -, hd⟩
  · exact Or.inl ⟨h1, h2, h3⟩
  · rcases hd with ⟨-, h1, h2, h3⟩ | ⟨hg, h1, h2, h3⟩
    · exact Or.inl ⟨h1, h2, h3⟩
    · exact Or.inr ⟨ev, rest, pid, c, st, d, e1, e2, e3, e4, hg, h1, h2, h3⟩

/-- Claim C3 witness: the completion step of the one-customer run appends
exactly one timestamped queue-length sample. -/
theorem claim3_sampling_inside_completions_witness :
    (runState cfgOne 7).inv_time =
      (runState cfgOne 6).inv_time ++ [(runState cfgOne 7).now] ∧
    (runState cfgOne 7).inv_queue = (runState cfgOne 6).inv_queue ++
      [((runState cfgOne 7).atm.queue.length,
        (runState cfgOne 7).cashiers.queue.length)] := by
  have happ := claim3_sampling_inside_completions cfgOne
    (runState cfgOne 6) (runState cfgOne 7) (by with_unfolding_all rfl)
  exact ⟨by with_unfolding_all rfl, by with_unfolding_all rfl⟩

/-- Claim C4 counterexample: with the invalid ATM triple `(5, 2, 4)` the
run is not rejected at setup — three events execute (generator start,
first arrival, customer start with an immediate ATM grant) before the
first draw raises numpy's `left > mode`. -/
theorem claim4_counterexample :
    runErr cfgBad 10 = some "left > mode" ∧ (runState cfgBad 10).nevents = 3 :=
  ⟨by with_unfolding_all rfl, by with_unfolding_all rfl⟩

/-- Claim C4 witness: the erroring step of the invalid run is a draw for
a granted customer, and the triple is indeed invalid. -/
theorem claim4_error_only_at_draw_witness :
    ¬triValid cfgBad.atm_service_time ∧
    step cfgBad (runState cfgBad 3) = .err "left > mode" := by
  have happ := claim4_error_only_at_draw cfgBad (runState cfgBad 3)
    "left > mode" (by with_unfolding_all rfl)
  exact ⟨of_decide_eq_true (by with_unfolding_all rfl), by with_unfolding_all rfl⟩

/-- Claim C5 counterexample: a run ending with `finished_count = 0` whose
ATM busy accumulator is 2, not 0 (the lone customer finished ATM service
but its cashier service ends past the horizon); the mean-sojourn KPI
`np.mean(flow_time)` silently evaluates to NaN. -/
theorem claim5_counterexample :
    (runState cfgStall 10).flow_time = [] ∧
    (runState cfgStall 10).atm_busy_time = 2 ∧
    npMean (runState cfgStall 10).flow_time = NpVal.nan :=
  ⟨by with_unfolding_all rfl, by with_unfolding_all rfl, by with_unfolding_all rfl⟩


/-- Claim C5 (amended): in a run with no arrival before the horizon
(Scenario B), no customer ever exists, so `flow_time` stays empty and
both busy accumulators stay 0; but the "Average Time in Bank" KPI
`np.mean(flow_time)` silently evaluates to NaN — there is no explicit
empty/undefined reporting anywhere — and the utilization ratios are 0. -/
theorem claim5_silent_nan (cfg : Config) (h1 : cfg.sim_time ≤ cfg.expDraws 0) (n : ℕ) :
    (runState cfg n).flow_time = [] ∧
    (runState cfg n).atm_busy_time = 0 ∧
    (runState cfg n).cashier_busy_time = 0 ∧
    npMean (runState cfg n).flow_time = NpVal.nan ∧
    (runState cfg n).atm_busy_time / cfg.sim_time = 0 ∧
    (runState cfg n).cashier_busy_time / (cfg.sim_time * (cfg.num_cashiers : ℚ)) = 0 := by
  suffices h : (runState cfg n).flow_time = [] ∧
      (runState cfg n).atm_busy_time = 0 ∧ (runState cfg n).cashier_busy_time = 0 by
    refine ⟨h.1, h.2.1, h.2.2, ?_, ?_, ?_⟩
    · rw [h.1]; rfl
    · rw [h.2.1]; exact zero_div _
    · rw [h.2.2]; exact zero_div _
  have key : ∀ m, (runState cfg m).flow_time = [] ∧
      (runState cfg m).atm_busy_time = 0 ∧ (runState cfg m).cashier_busy_time = 0 ∧
      (runState cfg m).procs = [] ∧
      ((runState cfg m).events = [⟨0, 0, .genStart⟩] ∧ (runState cfg m).ig = 0 ∧
        (runState cfg m).now = 0 ∨
       ∀ ev ∈ (runState cfg m).events, cfg.sim_time ≤ ev.time) := by
    intro m
    induction m with
    | zero => exact ⟨rfl, rfl, rfl, rfl, Or.inl ⟨rfl, rfl, rfl⟩⟩
    | succ k ih =>
        obtain ⟨hf, ha, hc, hp, hcase⟩ := ih
        rw [runState]
        unfold stepState
        rcases hcase with ⟨hev, hig, hnow⟩ | hall
        · by_cases h0 : cfg.sim_time ≤ (0 : ℚ)
          · have hstep : step cfg (runState cfg k) = .stop := by
              unfold step
              simp [hev, h0]
            rw [hstep]
            exact ⟨hf, ha, hc, hp, Or.inl ⟨hev, hig, hnow⟩⟩
          · have hstep : step cfg (runState cfg k) =
                .ok (doGenStart cfg { runState cfg k with
                                      events := [],
                                      now := 0,
                                      nevents := (runState cfg k).nevents + 1 }) := by
              unfold step
              simp [hev, h0]
            rw [hstep]
            refine ⟨hf, ha, hc, hp, Or.inr ?_⟩
            intro ev hevmem
            simp [doGenStart, sched, List.orderedInsert, hig] at hevmem
            rw [hevmem]
            simpa using h1
        · rcases hev : (runState cfg k).events with _ | ⟨ev, rest⟩
          · have hstep : step cfg (runState cfg k) = .stop := by
              unfold step
              rw [hev]
            rw [hstep]
            exact ⟨hf, ha, hc, hp, Or.inr (by rw [hev]; intro ev h2; cases h2)⟩
          · have hstep : step cfg (runState cfg k) = .stop := by
              unfold step
              simp [hev, if_pos (hall ev (hev ▸ List.mem_cons_self _ _))]
            rw [hstep]
            exact ⟨hf, ha, hc, hp, Or.inr hall⟩
  exact ⟨(key n).1, (key n).2.1, (key n).2.2.1⟩

/-- Claim C5 witness: the no-arrival run `cfgEmpty` (gap 100 over horizon
10) at fuel 5. -/
theorem claim5_silent_nan_witness :
    (runState cfgEmpty 5).flow_time = [] ∧
    (runState cfgEmpty 5).atm_busy_time = 0 ∧
    (runState cfgEmpty 5).cashier_busy_time = 0 ∧
    npMean (runState cfgEmpty 5).flow_time = NpVal.nan ∧
    (runState cfgEmpty 5).atm_busy_time / cfgEmpty.sim_time = 0 ∧
    (runState cfgEmpty 5).cashier_busy_time /
      (cfgEmpty.sim_time * (cfgEmpty.num_cashiers : ℚ)) = 0 :=
  claim5_silent_nan cfgEmpty (by norm_num [cfgEmpty, cfgOne]) 5

/-- Claim C6 (confirmed): whenever the horizon is positive, the cashier
count is positive and all stream draws are nonnegative, each busy
accumulator lies in `[0, horizon × capacity]` at every point of the run,
so both reported utilizations lie in `[0, 1]`. -/
theorem claim6_utilization_bounds (cfg : Config) (n : ℕ)
    (hhor : 0 < cfg.sim_time) (hnc : 0 < cfg.num_cashiers)
    (hgap : ∀ i, 0 ≤ cfg.expDraws i)
    (hatm : ∀ i, 0 ≤ cfg.atmTriDraws i)
    (hcash : ∀ i, 0 ≤ cfg.cashTriDraws i) :
    (0 ≤ (runState cfg n).atm_busy_time ∧
      (runState cfg n).atm_busy_time ≤ cfg.sim_time * 1) ∧
    (0 ≤ (runState cfg n).cashier_busy_time ∧
      (runState cfg n).cashier_busy_time ≤ cfg.sim_time * (cfg.num_cashiers : ℚ)) ∧
    (0 ≤ (runState cfg n).atm_busy_time / (cfg.sim_time * 1) ∧
      (runState cfg n).atm_busy_time / (cfg.sim_time * 1) ≤ 1) ∧
    (0 ≤ (runState cfg n).cashier_busy_time / (cfg.sim_time * (cfg.num_cashiers : ℚ)) ∧
      (runState cfg n).cashier_busy_time /
        (cfg.sim_time * (cfg.num_cashiers : ℚ)) ≤ 1) := by
  have hS : StreamsOK cfg 0 0 :=
    ⟨le_refl 0, le_refl 0, hgap, hatm, hcash, Or.inl rfl⟩
  have hB := invB_runState cfg n
  have hT := invT_runState cfg 0 0 hS n
  have hsA := sumC_contribA_nonneg 0 0 (runState cfg n).now (runState cfg n).procs hT.pinv
  have hsC := sumC_contribC_nonneg 0 0 (runState cfg n).now (runState cfg n).procs hT.pinv
  have hnow : (runState cfg n).now ≤ cfg.sim_time := by
    have h2 := hT.now_bound
    rwa [max_eq_right hhor.le] at h2
  have hcap1 : ((runState cfg n).atm.capacity : ℚ) = 1 := by
    rw [hB.atm_cap_eq]; norm_num
  have hcapN : ((runState cfg n).cashiers.capacity : ℚ) = (cfg.num_cashiers : ℚ) := by
    rw [hB.cash_cap_eq]
  have hbA : (runState cfg n).atm_busy_time ≤ cfg.sim_time * 1 := by
    have hpA := hT.pot_atm
    rw [hcap1] at hpA
    rw [mul_one]
    have h3 : 1 * (runState cfg n).now = (runState cfg n).now := one_mul _
    linarith
  have hbC : (runState cfg n).cashier_busy_time ≤
      cfg.sim_time * (cfg.num_cashiers : ℚ) := by
    have hpC := hT.pot_cash
    rw [hcapN] at hpC
    have h3 : (cfg.num_cashiers : ℚ) * (runState cfg n).now ≤
        (cfg.num_cashiers : ℚ) * cfg.sim_time :=
      mul_le_mul_of_nonneg_left hnow (Nat.cast_nonneg _)
    rw [mul_comm]
    linarith
  have hposA : (0 : ℚ) < cfg.sim_time * 1 := by rw [mul_one]; exact hhor
  have hposC : (0 : ℚ) < cfg.sim_time * (cfg.num_cashiers : ℚ) :=
    mul_pos hhor (by exact_mod_cast hnc)
  exact ⟨⟨hT.busy_atm_nonneg, hbA⟩, ⟨hT.busy_cash_nonneg, hbC⟩,
    ⟨div_nonneg hT.busy_atm_nonneg hposA.le, (div_le_one hposA).mpr hbA⟩,
    ⟨div_nonneg hT.busy_cash_nonneg hposC.le, (div_le_one hposC).mpr hbC⟩⟩

/-- Claim C6 witness: the utilization bounds instantiated on the
one-customer run at its final state. -/
theorem claim6_utilization_bounds_witness :
    (0 ≤ (runState cfgOne 7).atm_busy_time / (cfgOne.sim_time * 1) ∧
      (runState cfgOne 7).atm_busy_time / (cfgOne.sim_time * 1) ≤ 1) ∧
    (0 ≤ (runState cfgOne 7).cashier_busy_time /
        (cfgOne.sim_time * (cfgOne.num_cashiers : ℚ)) ∧
      (runState cfgOne 7).cashier_busy_time /
        (cfgOne.sim_time * (cfgOne.num_cashiers : ℚ)) ≤ 1) := by
  have h := claim6_utilization_bounds cfgOne 7
    (by norm_num [cfgOne]) (by norm_num [cfgOne])
    (fun i => by simp only [cfgOne]; split <;> norm_num)
    (fun i => by norm_num [cfgOne]) (fun i => by norm_num [cfgOne])
  exact ⟨h.2.2.1, h.2.2.2⟩

/-- Claim C7 (confirmed): under the Scenario A configuration — horizon
1000, 5 cashiers, everyone routed ATM-first (`atm_prob = 1` and every
routing uniform below 1), ATM service triangular on `(1,2,4)` (every draw
in `[1,4]`), cashier service triangular on `(2,4,6)` (every draw in
`[2,6]`), nonnegative interarrival gaps — every recorded sojourn time is
at least 3 at every point of every run. -/
theorem claim7_sojourn_lower_bound (cfg : Config)
    (hsim : cfg.sim_time = 1000) (hnc : cfg.num_cashiers = 5)
    (hA : cfg.atm_service_time = (1, 2, 4))
    (hC : cfg.cashier_service_time = (2, 4, 6))
    (hp : cfg.atm_prob = 1)
    (hu : ∀ i, 0 ≤ cfg.uniDraws i ∧ cfg.uniDraws i < 1)
    (hgap : ∀ i, 0 ≤ cfg.expDraws i)
    (hatm : ∀ i, 1 ≤ cfg.atmTriDraws i ∧ cfg.atmTriDraws i ≤ 4)
    (hcash : ∀ i, 2 ≤ cfg.cashTriDraws i ∧ cfg.cashTriDraws i ≤ 6)
    (n : ℕ) : ∀ x ∈ (runState cfg n).flow_time, 3 ≤ x := by
  have hS : StreamsOK cfg 1 2 :=
    ⟨by norm_num, by norm_num, hgap, fun i => (hatm i).1, fun i => (hcash i).1,
     Or.inr fun i => by rw [hp]; exact (hu i).2⟩
  intro x hx
  have h2 := (invT_runState cfg 1 2 hS n).flow_lb x hx
  linarith

/-- Claim C7 witness: a concrete Scenario A draw sequence whose first two
customers finish with sojourns 6 and 7; the first recorded sojourn is at
least 3. -/
theorem claim7_sojourn_lower_bound_witness :
    (3 : ℚ) ≤ (runState cfgA 30).flow_time.headI ∧
    (runState cfgA 30).flow_time ≠ [] := by
  have hflow : (runState cfgA 30).flow_time = [6, 7] := by with_unfolding_all rfl
  constructor
  · have h6 := claim7_sojourn_lower_bound cfgA rfl rfl rfl rfl rfl
      (fun i => by norm_num [cfgA, cfgOne])
      (fun i => by norm_num [cfgA, cfgOne])
      (fun i => by norm_num [cfgA, cfgOne])
      (fun i => by norm_num [cfgA, cfgOne])
      30 6 (by rw [hflow]; exact List.mem_cons_self _ _)
    rw [hflow]
    exact h6
  · rw [hflow]
    simp

end BankSim
